import Mathlib

/-!
Verification development for the SmartPort logistics controller.

This file gives a shallow embedding of the parts of the C++ code base that
the verified properties talk about:

* `map.cpp` — `Map::neighbors`, `Map::computeDistancesToBerthViaBFS`,
  `Map::addTemporaryObstacle`, `Map::removeTemporaryObstacle`,
  `Map::isCollisionRisk`;
* `priorityQueue.h` — `PriorityQueueWithRemove`;
* `robotController.cpp` — `RobotController::resolveDeadlocks`,
  `RobotController::runPathfinding`;
* `gameManager.cpp` — the path-failure handling inside
  `GameManager::RobotControl`;
* `ship.h` — `SeaRoute::getPath`, `Ship::moveToTemporaryPosition`.

C++ machine integers are modelled by `Int`/`Nat` (the modelled quantities
stay far from the 32-bit range, except for `INT_MAX` which the code uses
as an explicit sentinel and which is kept as the literal `2147483647`).
`std::unordered_map` is modelled by an association list with the
`std::map`-style update/erase operations.  `std::vector` backing the
priority queue is modelled by its underlying buffer together with the
live length, because `PriorityQueueWithRemove::remove` reads the slot
one past the end (`vec[i]` with `i == vec.size()` after `pop_back`),
which in the running program yields the element that was just popped.
-/

namespace SmartPort

/-- Grid cell contents, from `MapItemSpace::MapItem` (map.h, described in the
spec §3: one of Space, Sea, Obstacle, Berth, Robot). -/
inductive MapItem where
  | SPACE
  | SEA
  | OBSTACLE
  | BERTH
  | ROBOT
  deriving DecidableEq, Repr, Inhabited

/-- Integer grid coordinate, from `Point2d` (utils.h; spec §3: integer pair,
supports `+`, `==`, Manhattan distance). -/
structure Point2d where
  x : Int
  y : Int
  deriving DecidableEq, Repr, Inhabited

instance : Add Point2d := ⟨fun a b => ⟨a.x + b.x, a.y + b.y⟩⟩

@[simp] theorem Point2d.add_def (a b : Point2d) :
    a + b = ⟨a.x + b.x, a.y + b.y⟩ := rfl

/-- Manhattan distance of `Point2d::calculateManhattanDistance`. -/
def calculateManhattanDistance (a b : Point2d) : Int :=
  (a.x - b.x).natAbs + (a.y - b.y).natAbs

/-- Ship/robot heading, from `Direction` (utils.h). -/
inductive Direction where
  | EAST
  | WEST
  | NORTH
  | SOUTH
  deriving DecidableEq, Repr, Inhabited

/-- Oriented pose of a ship, from `VectorPosition` (utils.h; spec §3:
a `Point2d` plus a `Direction`). -/
structure VectorPosition where
  pos : Point2d
  direction : Direction
  deriving DecidableEq, Repr, Inhabited

end SmartPort

namespace SmartPort

/-! ### Association lists, modelling `std::unordered_map` -/

variable {K : Type} {V : Type} [DecidableEq K]

/-- Lookup a key; models `map.find(k)` returning an iterator (as `Option`). -/
def alistFind (l : List (K × V)) (k : K) : Option V :=
  match l with
  | [] => none
  | (k', v) :: rest => if k' = k then some v else alistFind rest k

/-- Update the first binding of `k`, or append a new binding at the end;
models `map[k] = v`. -/
def alistSet (l : List (K × V)) (k : K) (v : V) : List (K × V) :=
  match l with
  | [] => [(k, v)]
  | (k', v') :: rest =>
    if k' = k then (k', v) :: rest else (k', v') :: alistSet rest k v

/-- Erase the first binding of `k`; models `map.erase(k)`. -/
def alistErase (l : List (K × V)) (k : K) : List (K × V) :=
  match l with
  | [] => []
  | (k', v') :: rest =>
    if k' = k then rest else (k', v') :: alistErase rest k

@[simp] theorem alistFind_nil (k : K) : alistFind ([] : List (K × V)) k = none := rfl

@[simp] theorem alistFind_cons (k k' : K) (v : V) (rest : List (K × V)) :
    alistFind ((k', v) :: rest) k =
      if k' = k then some v else alistFind rest k := rfl

@[simp] theorem alistSet_nil (k : K) (v : V) :
    alistSet ([] : List (K × V)) k v = [(k, v)] := rfl

@[simp] theorem alistErase_nil (k : K) :
    alistErase ([] : List (K × V)) k = [] := rfl

theorem alistFind_alistSet_self (l : List (K × V)) (k : K) (v : V) :
    alistFind (alistSet l k v) k = some v := by
  induction l with
  | nil => simp [alistSet]
  | cons kv rest ih =>
    obtain ⟨k', v'⟩ := kv
    by_cases h : k' = k <;> simp [alistSet, alistFind, h, ih]

theorem alistFind_alistSet_other (l : List (K × V)) (k k' : K) (v : V)
    (hne : k ≠ k') : alistFind (alistSet l k v) k' = alistFind l k' := by
  induction l with
  | nil => simp [alistSet, alistFind, hne]
  | cons kv rest ih =>
    obtain ⟨k0, v0⟩ := kv
    by_cases h : k0 = k
    · subst h
      simp [alistSet, alistFind, hne, ih]
    · simp only [alistSet, if_neg h, alistFind]
      by_cases h' : k0 = k' <;> simp [h', ih]

theorem alistFind_eq_none_of_not_mem (l : List (K × V)) (k : K)
    (h : k ∉ l.map Prod.fst) : alistFind l k = none := by
  induction l with
  | nil => rfl
  | cons kv rest ih =>
    obtain ⟨k0, v0⟩ := kv
    simp only [List.map_cons, List.mem_cons] at h
    push_neg at h
    simp only [alistFind, if_neg (fun hh : k0 = k => h.1 hh.symm)]
    exact ih h.2

theorem alistFind_alistErase_self (l : List (K × V)) (k : K)
    (hnodup : (l.map Prod.fst).Nodup) :
    alistFind (alistErase l k) k = none := by
  induction l with
  | nil => simp
  | cons kv rest ih =>
    obtain ⟨k0, v0⟩ := kv
    simp only [List.map_cons, List.nodup_cons] at hnodup
    by_cases h : k0 = k
    · subst h
      simp only [alistErase, if_pos rfl]
      exact alistFind_eq_none_of_not_mem rest k0 hnodup.1
    · simp only [alistErase, if_neg h, alistFind, if_neg h]
      exact ih hnodup.2

theorem alistFind_alistErase_other (l : List (K × V)) (k k' : K)
    (hne : k ≠ k') : alistFind (alistErase l k) k' = alistFind l k' := by
  induction l with
  | nil => simp
  | cons kv rest ih =>
    obtain ⟨k0, v0⟩ := kv
    by_cases h : k0 = k
    · subst h
      simp [alistErase, alistFind, hne]
    · simp only [alistErase, if_neg h, alistFind]
      by_cases h' : k0 = k' <;> simp [h', ih]

theorem alistErase_append_singleton (l : List (K × V)) (k : K) (v : V)
    (h : k ∉ l.map Prod.fst) :
    alistErase (l ++ [(k, v)]) k = l := by
  induction l with
  | nil => simp [alistErase]
  | cons kv rest ih =>
    obtain ⟨k0, v0⟩ := kv
    simp only [List.map_cons, List.mem_cons] at h
    push_neg at h
    simp only [List.cons_append, alistErase,
      if_neg (fun hh : k0 = k => h.1 hh.symm)]
    exact congrArg (List.cons (k0, v0)) (ih h.2)

theorem alistSet_eq_self_of_find (l : List (K × V)) (k : K) (v : V)
    (h : alistFind l k = some v) : alistSet l k v = l := by
  induction l with
  | nil => simp [alistFind] at h
  | cons kv rest ih =>
    obtain ⟨k0, v0⟩ := kv
    by_cases hk : k0 = k
    · subst hk
      simp [alistFind] at h
      simp [alistSet, ← h]
    · simp only [alistFind, if_neg hk] at h
      simp [alistSet, hk, ih h]

theorem alistSet_alistSet_same (l : List (K × V)) (k : K) (v v' : V) :
    alistSet (alistSet l k v) k v' = alistSet l k v' := by
  induction l with
  | nil => simp [alistSet]
  | cons kv rest ih =>
    obtain ⟨k0, v0⟩ := kv
    by_cases hk : k0 = k <;> simp [alistSet, hk, ih]

theorem alistFind_append_singleton_self (l : List (K × V)) (k : K) (v : V)
    (h : alistFind l k = none) : alistFind (l ++ [(k, v)]) k = some v := by
  induction l with
  | nil => simp [alistFind]
  | cons kv rest ih =>
    obtain ⟨k0, v0⟩ := kv
    by_cases hk : k0 = k
    · simp [alistFind, hk] at h
    · simp only [alistFind, if_neg hk] at h
      simp only [List.cons_append, alistFind, if_neg hk]
      exact ih h

theorem not_mem_keys_of_alistFind_eq_none (l : List (K × V)) (k : K)
    (h : alistFind l k = none) : k ∉ l.map Prod.fst := by
  induction l with
  | nil => simp
  | cons kv rest ih =>
    obtain ⟨k0, v0⟩ := kv
    by_cases hk : k0 = k
    · simp [alistFind, hk] at h
    · simp only [alistFind, if_neg hk] at h
      simp only [List.map_cons, List.mem_cons]
      push_neg
      exact ⟨fun hh => hk hh.symm, ih h⟩

end SmartPort

namespace SmartPort

/-! ### The map (`map.h` / `map.cpp`)

`Map` owns the grid, the list of temporary obstacles and their reference
counts (spec §3).  `rows`/`cols` are the grid dimensions; the grid itself is
modelled as a total function on integer coordinates, of which only the
in-bounds part is ever read. -/

structure MapState where
  rows : Nat
  cols : Nat
  grid : Int → Int → MapItem
  temporaryObstacles : List Point2d
  temporaryObstaclesRefCount : List (Point2d × Nat)

/-- Modelled from the spec: `Map::inBounds` (declared in the missing
`map.h`); the grid is `rows × cols` with 0-based coordinates (spec §3:
"The grid is 200×200"; `x` indexes rows, `y` columns as in
`grid[pos.x][pos.y]`). -/
def MapState.inBounds (m : MapState) (p : Point2d) : Prop :=
  0 ≤ p.x ∧ p.x < (m.rows : Int) ∧ 0 ≤ p.y ∧ p.y < (m.cols : Int)

instance (m : MapState) (p : Point2d) : Decidable (m.inBounds p) := by
  unfold MapState.inBounds; infer_instance

/-- Cell lookup `Map::getCell` (missing `map.h`; reads `grid[pos.x][pos.y]`
as `Map::addTemporaryObstacle` does). -/
def MapState.getCell (m : MapState) (p : Point2d) : MapItem :=
  m.grid p.x p.y

/-- Pointwise write to the grid, modelling `grid[pos.x][pos.y] = item`. -/
def setCellFun (g : Int → Int → MapItem) (p : Point2d) (item : MapItem) :
    Int → Int → MapItem :=
  fun x y => if x = p.x ∧ y = p.y then item else g x y

/-- Modelled from the spec: `Map::passable` (declared in the missing
`map.h`; spec §4.1: "`passable(p)` (true for Space and Berth; false for
Sea/Obstacle/Robot-marker)"). -/
def MapState.passable (m : MapState) (p : Point2d) : Prop :=
  m.getCell p = MapItem.SPACE ∨ m.getCell p = MapItem.BERTH

instance (m : MapState) (p : Point2d) : Decidable (m.passable p) := by
  unfold MapState.passable; infer_instance

/-- A position that the BFS / neighbor queries may step on. -/
def MapState.valid (m : MapState) (p : Point2d) : Prop :=
  m.inBounds p ∧ m.passable p

instance (m : MapState) (p : Point2d) : Decidable (m.valid p) := by
  unfold MapState.valid; infer_instance

/-- The four direction offsets `Map::DIRS` (map.cpp line 10), in source
order East, West, North, South. -/
def DIRS : List Point2d := [⟨1, 0⟩, ⟨-1, 0⟩, ⟨0, -1⟩, ⟨0, 1⟩]

/-- `Map::neighbors` (map.cpp lines 14–35): collect the in-bounds passable
4-neighbors in `DIRS` order, then reverse the collected list when
`(pos.x + pos.y)` is even. -/
def MapState.neighbors (m : MapState) (pos : Point2d) : List Point2d :=
  let results := DIRS.filterMap (fun dir =>
    let next : Point2d := ⟨pos.x + dir.x, pos.y + dir.y⟩
    if m.valid next then some next else none)
  if (pos.x + pos.y) % 2 = 0 then results.reverse else results

/-- `Map::addTemporaryObstacle` (map.cpp lines 179–190).  The second
component records whether the error branch (`LOGE`, placing an obstacle on
Sea/Obstacle) was taken. -/
def MapState.addTemporaryObstacle (m : MapState) (pos : Point2d) :
    MapState × Bool :=
  if m.inBounds pos then
    let item := m.getCell pos
    if item = MapItem.OBSTACLE ∨ item = MapItem.SEA then
      (m, true)
    else
      ({ m with
          grid := setCellFun m.grid pos MapItem.ROBOT
          temporaryObstacles := m.temporaryObstacles ++ [pos]
          temporaryObstaclesRefCount :=
            match alistFind m.temporaryObstaclesRefCount pos with
            | some k => alistSet m.temporaryObstaclesRefCount pos (k + 1)
            | none => m.temporaryObstaclesRefCount ++ [(pos, 1)] },
        false)
  else (m, false)

/-- `Map::removeTemporaryObstacle` (map.cpp lines 192–200).  The stored
counts are non-negative ints, modelled as `Nat`; the C++ test
`--it->second <= 0` becomes `k - 1 = 0` on the stored count `k`. -/
def MapState.removeTemporaryObstacle (m : MapState) (pos : Point2d) :
    MapState :=
  match alistFind m.temporaryObstaclesRefCount pos with
  | none => m
  | some k =>
    if k - 1 = 0 then
      { m with
          temporaryObstaclesRefCount :=
            alistErase m.temporaryObstaclesRefCount pos
          grid := setCellFun m.grid pos MapItem.SPACE }
    else
      { m with
          temporaryObstaclesRefCount :=
            alistSet m.temporaryObstaclesRefCount pos (k - 1) }

/-- Offsets `-f, …, f` traversed by the inner loops of
`Map::isCollisionRisk`. -/
def offsetRange (f : Nat) : List Int :=
  (List.range (2 * f + 1)).map (fun (t : Nat) => (t : Int) - (f : Int))

/-- `Map::isCollisionRisk` (map.cpp lines 155–177): for every other robot
within Manhattan distance `2·framesAhead` of the querying robot, push every
in-bounds passable cell of the `(2·framesAhead+1)²` box centred at that
robot. -/
def isCollisionRisk (m : MapState) (robotPosition : List Point2d)
    (robotID : Nat) (framesAhead : Nat) : List Point2d :=
  (List.range robotPosition.length).foldl (fun obstacle i =>
    if i = robotID then obstacle
    else if calculateManhattanDistance (robotPosition.getD robotID ⟨0, 0⟩)
        (robotPosition.getD i ⟨0, 0⟩) ≤ 2 * (framesAhead : Int) then
      obstacle ++ (offsetRange framesAhead).flatMap (fun j =>
        (offsetRange framesAhead).filterMap (fun k =>
          let next : Point2d := ⟨(robotPosition.getD i ⟨0, 0⟩).x + j,
                                 (robotPosition.getD i ⟨0, 0⟩).y + k⟩
          if m.valid next then some next else none))
    else obstacle) []

end SmartPort

namespace SmartPort

/-! ### Concrete maps used by witnesses and counterexamples -/

/-- An `n × n` map whose cells are all `Space`, with no temporary
obstacles. -/
def allSpaceMap (n : Nat) : MapState :=
  { rows := n
    cols := n
    grid := fun _ _ => MapItem.SPACE
    temporaryObstacles := []
    temporaryObstaclesRefCount := [] }

/-- A `4 × 4` map whose cell `(0,0)` is a berth cell and whose other cells
are `Space`. -/
def berthCellMap : MapState :=
  { rows := 4
    cols := 4
    grid := fun x y => if x = 0 ∧ y = 0 then MapItem.BERTH else MapItem.SPACE
    temporaryObstacles := []
    temporaryObstaclesRefCount := [] }

/-- A `4 × 4` map whose cells are all `Sea`. -/
def seaMap : MapState :=
  { rows := 4
    cols := 4
    grid := fun _ _ => MapItem.SEA
    temporaryObstacles := []
    temporaryObstaclesRefCount := [] }

/-! ### Claim C1 -/

/-- Membership characterization of `Map::neighbors`: the returned cells are
exactly the in-bounds passable 4-neighbors. -/
theorem mem_neighbors (m : MapState) (p q : Point2d) :
    q ∈ m.neighbors p ↔
      ((∃ dir ∈ DIRS, q = ⟨p.x + dir.x, p.y + dir.y⟩) ∧
        m.inBounds q ∧ m.passable q) := by
  have hiff : q ∈ m.neighbors p ↔
      q ∈ DIRS.filterMap (fun dir =>
        if m.valid ⟨p.x + dir.x, p.y + dir.y⟩ then
          some ⟨p.x + dir.x, p.y + dir.y⟩ else none) := by
    unfold MapState.neighbors
    by_cases h : (p.x + p.y) % 2 = 0 <;> simp [h]
  rw [hiff, List.mem_filterMap]
  constructor
  · rintro ⟨dir, hdir, hq⟩
    by_cases hv : m.valid ⟨p.x + dir.x, p.y + dir.y⟩
    · rw [if_pos hv] at hq
      obtain rfl : (⟨p.x + dir.x, p.y + dir.y⟩ : Point2d) = q :=
        Option.some.inj hq
      exact ⟨⟨dir, hdir, rfl⟩, hv.1, hv.2⟩
    · rw [if_neg hv] at hq
      exact absurd hq (Option.noConfusion)
  · rintro ⟨⟨dir, hdir, rfl⟩, hb, hpass⟩
    exact ⟨dir, hdir, by rw [if_pos ⟨hb, hpass⟩]⟩

/-- Claim C1: for every in-bounds position `p`, `Map::neighbors(p)` returns
exactly the in-bounds passable cells among the four 4-connected neighbors
of `p`, in the canonical `{E, W, N, S}` order when `p.x + p.y` is odd and
in the reversed order when `p.x + p.y` is even; in particular on an
all-Space map the neighbors of `(0,0)` are `[S, E]`-cells (the surviving
part of the reversed order `{S, N, W, E}`) and the neighbors of `(0,1)`
are the `[E, N, S]`-cells (the surviving part of `{E, W, N, S}`). -/
theorem claim_C1_neighbors (m : MapState) (p : Point2d) (_hp : m.inBounds p) :
    (m.neighbors p =
      (if (p.x + p.y) % 2 = 0 then DIRS.reverse else DIRS).filterMap
        (fun dir =>
          if m.valid ⟨p.x + dir.x, p.y + dir.y⟩ then
            some ⟨p.x + dir.x, p.y + dir.y⟩ else none)) ∧
    (∀ q, q ∈ m.neighbors p ↔
      ((∃ dir ∈ DIRS, q = ⟨p.x + dir.x, p.y + dir.y⟩) ∧
        m.inBounds q ∧ m.passable q)) ∧
    (allSpaceMap 8).neighbors ⟨0, 0⟩ = [⟨0, 1⟩, ⟨1, 0⟩] ∧
    (allSpaceMap 8).neighbors ⟨0, 1⟩ = [⟨1, 1⟩, ⟨0, 0⟩, ⟨0, 2⟩] := by
  refine ⟨?_, fun q => mem_neighbors m p q, by decide, by decide⟩
  unfold MapState.neighbors
  by_cases h : (p.x + p.y) % 2 = 0
  · simp only [if_pos h]
    exact (List.filterMap_reverse _ _).symm
  · simp only [if_neg h]

/-- Witness for C1: the theorem applied to the all-Space map at the
in-bounds position `(0,1)`. -/
theorem claim_C1_neighbors_witness :
    (allSpaceMap 8).inBounds ⟨0, 1⟩ ∧
      (allSpaceMap 8).neighbors ⟨0, 1⟩ = [⟨1, 1⟩, ⟨0, 0⟩, ⟨0, 2⟩] :=
  ⟨by decide, (claim_C1_neighbors (allSpaceMap 8) ⟨0, 1⟩ (by decide)).2.2.2⟩

/-! ### Claims C3 and C7: temporary obstacles -/

/-- Claim C3 counterexample: on a map whose in-bounds cell `(0,0)` is
`Berth` (neither Sea nor Obstacle), `addTemporaryObstacle` followed by
`removeTemporaryObstacle` leaves the cell as `Space`, not the original
`Berth` — the pair of calls does not restore the cell. -/
theorem claim_C3_counterexample :
    berthCellMap.inBounds ⟨0, 0⟩ ∧
    berthCellMap.getCell ⟨0, 0⟩ = MapItem.BERTH ∧
    berthCellMap.getCell ⟨0, 0⟩ ≠ MapItem.SEA ∧
    berthCellMap.getCell ⟨0, 0⟩ ≠ MapItem.OBSTACLE ∧
    ((berthCellMap.addTemporaryObstacle ⟨0, 0⟩).1.removeTemporaryObstacle
        ⟨0, 0⟩).getCell ⟨0, 0⟩ = MapItem.SPACE ∧
    ((berthCellMap.addTemporaryObstacle ⟨0, 0⟩).1.removeTemporaryObstacle
        ⟨0, 0⟩).getCell ⟨0, 0⟩ ≠ berthCellMap.getCell ⟨0, 0⟩ := by
  refine ⟨by decide, by decide, by decide, by decide, ?_, ?_⟩ <;> decide

/-- Claim C3 (amended): for every in-bounds position `p` whose cell is
`Space` with no ref-count entry, or whose cell is the `Robot` marker backed
by a positive ref-count entry (which is every non-Sea/Obstacle cell other
than `Berth`, in states satisfying the map's ref-count invariant),
`addTemporaryObstacle(p)` followed by `removeTemporaryObstacle(p)` restores
the grid cell at `p` and leaves the ref-count table unchanged.  (A `Berth`
cell is excluded: the pair of calls turns it into `Space`.) -/
theorem claim_C3_amended (m : MapState) (p : Point2d) (hin : m.inBounds p)
    (hcase :
      (m.getCell p = MapItem.SPACE ∧
        alistFind m.temporaryObstaclesRefCount p = none) ∨
      (m.getCell p = MapItem.ROBOT ∧
        ∃ k, alistFind m.temporaryObstaclesRefCount p = some k ∧ 1 ≤ k)) :
    ((m.addTemporaryObstacle p).1.removeTemporaryObstacle p).getCell p =
        m.getCell p ∧
    ((m.addTemporaryObstacle p).1.removeTemporaryObstacle
        p).temporaryObstaclesRefCount = m.temporaryObstaclesRefCount := by
  rcases hcase with ⟨hcell, hrc⟩ | ⟨hcell, k, hrc, hk⟩
  · have hgrid : m.grid p.x p.y = MapItem.SPACE := hcell
    have hne : ¬ (m.getCell p = MapItem.OBSTACLE ∨ m.getCell p = MapItem.SEA) := by
      rw [hcell]; rintro (h | h) <;> exact MapItem.noConfusion h
    have hadd : (m.addTemporaryObstacle p).1 =
        { m with
            grid := setCellFun m.grid p MapItem.ROBOT
            temporaryObstacles := m.temporaryObstacles ++ [p]
            temporaryObstaclesRefCount :=
              m.temporaryObstaclesRefCount ++ [(p, 1)] } := by
      unfold MapState.addTemporaryObstacle
      rw [if_pos hin, if_neg hne, hrc]
    rw [hadd]
    unfold MapState.removeTemporaryObstacle
    simp only [alistFind_append_singleton_self _ _ _ hrc, Nat.sub_self,
      if_pos rfl]
    refine ⟨?_, ?_⟩
    · show setCellFun (setCellFun m.grid p MapItem.ROBOT) p MapItem.SPACE
          p.x p.y = m.grid p.x p.y
      simp [setCellFun, hgrid]
    · exact alistErase_append_singleton _ _ _
        (not_mem_keys_of_alistFind_eq_none _ _ hrc)
  · have hgrid : m.grid p.x p.y = MapItem.ROBOT := hcell
    have hne : ¬ (m.getCell p = MapItem.OBSTACLE ∨ m.getCell p = MapItem.SEA) := by
      rw [hcell]; rintro (h | h) <;> exact MapItem.noConfusion h
    have hadd : (m.addTemporaryObstacle p).1 =
        { m with
            grid := setCellFun m.grid p MapItem.ROBOT
            temporaryObstacles := m.temporaryObstacles ++ [p]
            temporaryObstaclesRefCount :=
              alistSet m.temporaryObstaclesRefCount p (k + 1) } := by
      unfold MapState.addTemporaryObstacle
      rw [if_pos hin, if_neg hne, hrc]
    rw [hadd]
    unfold MapState.removeTemporaryObstacle
    have hk1 : ¬ (k + 1 - 1 = 0) := by omega
    simp only [alistFind_alistSet_self, if_neg hk1]
    refine ⟨?_, ?_⟩
    · show setCellFun m.grid p MapItem.ROBOT p.x p.y = m.grid p.x p.y
      simp [setCellFun, hgrid]
    · simp only [Nat.add_sub_cancel, alistSet_alistSet_same]
      exact alistSet_eq_self_of_find _ _ _ hrc

/-- Witness for the amended C3: a `Space` cell of the all-Space map. -/
theorem claim_C3_amended_witness :
    (((allSpaceMap 4).addTemporaryObstacle ⟨1, 1⟩).1.removeTemporaryObstacle
        ⟨1, 1⟩).getCell ⟨1, 1⟩ = (allSpaceMap 4).getCell ⟨1, 1⟩ ∧
    (((allSpaceMap 4).addTemporaryObstacle ⟨1, 1⟩).1.removeTemporaryObstacle
        ⟨1, 1⟩).temporaryObstaclesRefCount =
      (allSpaceMap 4).temporaryObstaclesRefCount :=
  claim_C3_amended (allSpaceMap 4) ⟨1, 1⟩ (by decide)
    (Or.inl ⟨by decide, by decide⟩)

/-- Claim C7: calling `addTemporaryObstacle` on an in-bounds cell that is
`Sea` or `Obstacle` logs an error (second component `true`) and leaves the
whole map state unchanged; the function returns normally. -/
theorem claim_C7_add_on_sea_or_obstacle (m : MapState) (p : Point2d)
    (hin : m.inBounds p)
    (hcell : m.getCell p = MapItem.SEA ∨ m.getCell p = MapItem.OBSTACLE) :
    m.addTemporaryObstacle p = (m, true) := by
  unfold MapState.addTemporaryObstacle
  rw [if_pos hin, if_pos (hcell.elim Or.inr Or.inl)]

/-- Witness for C7: a sea cell of the all-Sea map. -/
theorem claim_C7_witness :
    seaMap.addTemporaryObstacle ⟨0, 0⟩ = (seaMap, true) :=
  claim_C7_add_on_sea_or_obstacle seaMap ⟨0, 0⟩ (by decide)
    (Or.inl (by decide))

end SmartPort

namespace SmartPort

/-! ### Claim C8: `Map::isCollisionRisk` -/

theorem mem_offsetRange (f : Nat) (t : Int) :
    t ∈ offsetRange f ↔ -(f : Int) ≤ t ∧ t ≤ (f : Int) := by
  unfold offsetRange
  rw [List.mem_map]
  constructor
  · rintro ⟨j, hj, rfl⟩
    rw [List.mem_range] at hj
    constructor <;> omega
  · rintro ⟨h1, h2⟩
    refine ⟨(t + (f : Int)).toNat, ?_, ?_⟩
    · rw [List.mem_range]
      omega
    · omega

theorem foldl_append_eq_flatMap {α β : Type} (l : List α) (g : α → List β)
    (init : List β) :
    l.foldl (fun acc i => acc ++ g i) init = init ++ l.flatMap g := by
  induction l generalizing init with
  | nil => simp
  | cons a l ih => simp [ih, List.append_assoc]

/-- The cells contributed by robot `i` to `Map::isCollisionRisk` (the body
of the outer loop, map.cpp lines 159–175). -/
def collisionContribution (m : MapState) (robotPosition : List Point2d)
    (robotID framesAhead : Nat) (i : Nat) : List Point2d :=
  if i = robotID then []
  else if calculateManhattanDistance (robotPosition.getD robotID ⟨0, 0⟩)
      (robotPosition.getD i ⟨0, 0⟩) ≤ 2 * (framesAhead : Int) then
    (offsetRange framesAhead).flatMap (fun j =>
      (offsetRange framesAhead).filterMap (fun k =>
        if m.valid ⟨(robotPosition.getD i ⟨0, 0⟩).x + j,
            (robotPosition.getD i ⟨0, 0⟩).y + k⟩ then
          some ⟨(robotPosition.getD i ⟨0, 0⟩).x + j,
                (robotPosition.getD i ⟨0, 0⟩).y + k⟩
        else none))
  else []

theorem isCollisionRisk_eq_flatMap (m : MapState)
    (robotPosition : List Point2d) (robotID framesAhead : Nat) :
    isCollisionRisk m robotPosition robotID framesAhead =
      (List.range robotPosition.length).flatMap
        (collisionContribution m robotPosition robotID framesAhead) := by
  unfold isCollisionRisk
  have hbody : (fun (obstacle : List Point2d) (i : Nat) =>
      if i = robotID then obstacle
      else if calculateManhattanDistance (robotPosition.getD robotID ⟨0, 0⟩)
          (robotPosition.getD i ⟨0, 0⟩) ≤ 2 * (framesAhead : Int) then
        obstacle ++ (offsetRange framesAhead).flatMap (fun j =>
          (offsetRange framesAhead).filterMap (fun k =>
            let next : Point2d := ⟨(robotPosition.getD i ⟨0, 0⟩).x + j,
                                   (robotPosition.getD i ⟨0, 0⟩).y + k⟩
            if m.valid next then some next else none))
      else obstacle) =
      (fun acc i =>
        acc ++ collisionContribution m robotPosition robotID framesAhead i) := by
    funext acc i
    unfold collisionContribution
    by_cases h1 : i = robotID
    · rw [if_pos h1, if_pos h1, List.append_nil]
    · by_cases h2 : calculateManhattanDistance
          (robotPosition.getD robotID ⟨0, 0⟩)
          (robotPosition.getD i ⟨0, 0⟩) ≤ 2 * (framesAhead : Int)
      · rw [if_neg h1, if_pos h2, if_neg h1, if_pos h2]
      · rw [if_neg h1, if_neg h2, if_neg h1, if_neg h2, List.append_nil]
  rw [hbody, foldl_append_eq_flatMap]
  simp

/-- Claim C8 counterexample: with robots at `(0,0)` (the querying robot 0)
and `(0,1)`, and `framesAhead = 1`, the cell `(0,3)` lies within Manhattan
distance `2·framesAhead` of the other robot and is in-bounds and passable,
yet `isCollisionRisk` does not return it (the code collects a Chebyshev
box of radius `framesAhead`, not a Manhattan `2·framesAhead` bubble). -/
theorem claim_C8_counterexample :
    calculateManhattanDistance ⟨0, 3⟩ ⟨0, 1⟩ ≤ 2 * (1 : Int) ∧
    (allSpaceMap 5).inBounds ⟨0, 3⟩ ∧
    (allSpaceMap 5).passable ⟨0, 3⟩ ∧
    (⟨0, 3⟩ : Point2d) ∉ isCollisionRisk (allSpaceMap 5) [⟨0, 0⟩, ⟨0, 1⟩] 0 1 := by
  refine ⟨by decide, by decide, by decide, by decide⟩

/-- Claim C8 (amended): for every robot id and `framesAhead ≥ 0`,
`isCollisionRisk(robotId, framesAhead)` returns exactly the in-bounds
passable cells lying in the Chebyshev box of radius `framesAhead` around
the position of some other robot whose position is within Manhattan
distance `2·framesAhead` of the querying robot's position. -/
theorem claim_C8_amended (m : MapState) (robotPosition : List Point2d)
    (robotID framesAhead : Nat) (c : Point2d) :
    c ∈ isCollisionRisk m robotPosition robotID framesAhead ↔
      ∃ i, i < robotPosition.length ∧ i ≠ robotID ∧
        calculateManhattanDistance (robotPosition.getD robotID ⟨0, 0⟩)
          (robotPosition.getD i ⟨0, 0⟩) ≤ 2 * (framesAhead : Int) ∧
        (c.x - (robotPosition.getD i ⟨0, 0⟩).x).natAbs ≤ framesAhead ∧
        (c.y - (robotPosition.getD i ⟨0, 0⟩).y).natAbs ≤ framesAhead ∧
        m.inBounds c ∧ m.passable c := by
  rw [isCollisionRisk_eq_flatMap, List.mem_flatMap]
  constructor
  · rintro ⟨i, hi, hc⟩
    rw [List.mem_range] at hi
    unfold collisionContribution at hc
    by_cases h1 : i = robotID
    · simp [h1] at hc
    · rw [if_neg h1] at hc
      by_cases h2 : calculateManhattanDistance
          (robotPosition.getD robotID ⟨0, 0⟩)
          (robotPosition.getD i ⟨0, 0⟩) ≤ 2 * (framesAhead : Int)
      · rw [if_pos h2, List.mem_flatMap] at hc
        obtain ⟨j, hj, hc⟩ := hc
        rw [List.mem_filterMap] at hc
        obtain ⟨k, hk, hc⟩ := hc
        rw [mem_offsetRange] at hj hk
        by_cases hv : m.valid ⟨(robotPosition.getD i ⟨0, 0⟩).x + j,
            (robotPosition.getD i ⟨0, 0⟩).y + k⟩
        · rw [if_pos hv] at hc
          obtain rfl : (⟨(robotPosition.getD i ⟨0, 0⟩).x + j,
              (robotPosition.getD i ⟨0, 0⟩).y + k⟩ : Point2d) = c :=
            Option.some.inj hc
          refine ⟨i, hi, h1, h2, by simp; omega, by simp; omega,
            hv.1, hv.2⟩
        · rw [if_neg hv] at hc
          exact absurd hc (Option.noConfusion)
      · rw [if_neg h2] at hc
        exact absurd hc (List.not_mem_nil c)
  · rintro ⟨i, hi, h1, h2, hx, hy, hb, hpass⟩
    refine ⟨i, List.mem_range.mpr hi, ?_⟩
    unfold collisionContribution
    rw [if_neg h1, if_pos h2, List.mem_flatMap]
    refine ⟨c.x - (robotPosition.getD i ⟨0, 0⟩).x,
      (mem_offsetRange _ _).mpr (by omega), ?_⟩
    rw [List.mem_filterMap]
    refine ⟨c.y - (robotPosition.getD i ⟨0, 0⟩).y,
      (mem_offsetRange _ _).mpr (by omega), ?_⟩
    have hcc : (⟨(robotPosition.getD i ⟨0, 0⟩).x +
        (c.x - (robotPosition.getD i ⟨0, 0⟩).x),
        (robotPosition.getD i ⟨0, 0⟩).y +
        (c.y - (robotPosition.getD i ⟨0, 0⟩).y)⟩ : Point2d) = c := by
      obtain ⟨cx, cy⟩ := c
      simp only [Point2d.mk.injEq]
      omega
    rw [hcc, if_pos ⟨hb, hpass⟩]

end SmartPort

namespace SmartPort

/-! ### Robots and the controller (robot.h is not in the sources; the
fields follow the spec §3 Robot description) -/

/-- Robot controller status, from `RobotStatus` (spec §3). -/
inductive RobotStatus where
  | IDLE
  | MOVING_TO_GOODS
  | MOVING_TO_BERTH
  | DIZZY
  | DEATH
  | UNLOADING
  deriving DecidableEq, Repr, Inhabited

/-- Modelled from the spec: the `Robot` structure of the missing robot.h
(spec §3: id, current cell, carryingItem flag, carryingItemId, claimed
target id, destination cell, remaining path stored reversed, nextPos,
status, world state). -/
structure Robot where
  id : Nat
  pos : Point2d
  carryingItem : Int
  carryingItemId : Int
  targetid : Int
  destination : Point2d
  path : List Point2d
  nextPos : Point2d
  status : RobotStatus
  state : Int
  deriving DecidableEq, Repr

/-! ### Claim C5: `RobotController::resolveDeadlocks` -/

/-- Outcome of `RobotController::resolveDeadlocks`
(robotController.cpp lines 282–301).  `moveFirst pos` / `moveSecond pos`
stand for the call `robot1.moveToTemporaryPosition(pos)` /
`robot2.moveToTemporaryPosition(pos)` followed by `return`; `bothWait`
stands for setting both robots' wait flags. -/
inductive DeadlockOutcome where
  | moveFirst (pos : Point2d)
  | moveSecond (pos : Point2d)
  | bothWait
  deriving DecidableEq, Repr

/-- `RobotController::resolveDeadlocks` (robotController.cpp lines
282–301): walk `map.neighbors(robot1.pos)` and move robot 1 to the first
neighbor different from robot 2's position; otherwise walk
`map.neighbors(robot2.pos)` symmetrically; otherwise make both robots
wait. -/
def resolveDeadlocks (m : MapState) (robot1Pos robot2Pos : Point2d) :
    DeadlockOutcome :=
  match (m.neighbors robot1Pos).find? (fun pos => pos ≠ robot2Pos) with
  | some pos => DeadlockOutcome.moveFirst pos
  | none =>
    match (m.neighbors robot2Pos).find? (fun pos => pos ≠ robot1Pos) with
    | some pos => DeadlockOutcome.moveSecond pos
    | none => DeadlockOutcome.bothWait

/-- Claim C5: in the mutual-destination deadlock the controller moves
exactly one robot to a passable neighbor cell different from the other
robot's current cell (robot 1 preferred, else robot 2), and if neither
robot has such a neighbor, both robots are flagged to wait. -/
theorem claim_C5_resolveDeadlocks (m : MapState) (p1 p2 : Point2d) :
    (∀ q, resolveDeadlocks m p1 p2 = DeadlockOutcome.moveFirst q →
      q ∈ m.neighbors p1 ∧ q ≠ p2 ∧ m.inBounds q ∧ m.passable q) ∧
    (∀ q, resolveDeadlocks m p1 p2 = DeadlockOutcome.moveSecond q →
      q ∈ m.neighbors p2 ∧ q ≠ p1 ∧ m.inBounds q ∧ m.passable q ∧
        (∀ r ∈ m.neighbors p1, r = p2)) ∧
    (resolveDeadlocks m p1 p2 = DeadlockOutcome.bothWait ↔
      (∀ r ∈ m.neighbors p1, r = p2) ∧ (∀ r ∈ m.neighbors p2, r = p1)) := by
  unfold resolveDeadlocks
  rcases hfind1 : (m.neighbors p1).find? (fun pos => pos ≠ p2) with _ | q1
  · rcases hfind2 : (m.neighbors p2).find? (fun pos => pos ≠ p1) with _ | q2
    · simp only [hfind1, hfind2]
      have hall1 : ∀ r ∈ m.neighbors p1, r = p2 := by
        intro r hr
        have := List.find?_eq_none.mp hfind1 r hr
        simpa using this
      have hall2 : ∀ r ∈ m.neighbors p2, r = p1 := by
        intro r hr
        have := List.find?_eq_none.mp hfind2 r hr
        simpa using this
      refine ⟨?_, ?_, ?_⟩
      · intro q hq
        exact absurd hq (by simp)
      · intro q hq
        exact absurd hq (by simp)
      · exact ⟨fun _ => ⟨hall1, hall2⟩, fun _ => trivial⟩
    · simp only [hfind1, hfind2]
      have hq2mem : q2 ∈ m.neighbors p2 := List.mem_of_find?_eq_some hfind2
      have hq2ne : q2 ≠ p1 := by
        have := List.find?_some hfind2
        simpa using this
      have hall1 : ∀ r ∈ m.neighbors p1, r = p2 := by
        intro r hr
        have := List.find?_eq_none.mp hfind1 r hr
        simpa using this
      have hv := (mem_neighbors m p2 q2).mp hq2mem
      refine ⟨?_, ?_, ?_⟩
      · intro q hq
        exact absurd hq (by simp)
      · intro q hq
        obtain rfl : q2 = q := by
          simpa using hq
        exact ⟨hq2mem, hq2ne, hv.2.1, hv.2.2, hall1⟩
      · constructor
        · intro hq
          exact absurd hq (by simp)
        · rintro ⟨-, hall2⟩
          exact absurd (hall2 q2 hq2mem) hq2ne
  · simp only [hfind1]
    have hq1mem : q1 ∈ m.neighbors p1 := List.mem_of_find?_eq_some hfind1
    have hq1ne : q1 ≠ p2 := by
      have := List.find?_some hfind1
      simpa using this
    have hv := (mem_neighbors m p1 q1).mp hq1mem
    refine ⟨?_, ?_, ?_⟩
    · intro q hq
      obtain rfl : q1 = q := by
        simpa using hq
      exact ⟨hq1mem, hq1ne, hv.2.1, hv.2.2⟩
    · intro q hq
      exact absurd hq (by simp)
    · constructor
      · intro hq
        exact absurd hq (by simp)
      · rintro ⟨hall1, -⟩
        exact absurd (hall1 q1 hq1mem) hq1ne

/-- Witness for C5: on the all-Space map with the deadlocked robots at
`(0,0)` and `(0,1)`, robot 1 is moved to its first usable neighbor
`(1,0)`, which is a passable in-bounds cell different from `(0,1)`. -/
theorem claim_C5_resolveDeadlocks_witness :
    (⟨1, 0⟩ : Point2d) ∈ (allSpaceMap 4).neighbors ⟨0, 0⟩ ∧
      (⟨1, 0⟩ : Point2d) ≠ (⟨0, 1⟩ : Point2d) ∧
      (allSpaceMap 4).inBounds ⟨1, 0⟩ ∧ (allSpaceMap 4).passable ⟨1, 0⟩ :=
  (claim_C5_resolveDeadlocks (allSpaceMap 4) ⟨0, 0⟩ ⟨0, 1⟩).1 ⟨1, 0⟩
    (by decide)

end SmartPort

namespace SmartPort

/-! ### Claim C6: handling of pathfinding failure -/

/-- `RobotController::runPathfinding` (robotController.cpp lines 303–317),
parameterized by the outcome of `robot.findPath(map)`.  Modelled from the
spec: `Robot::findPath` lives in the missing robot.h; per spec §4.2/§4.6 it
runs A* and on success stores the found path on the robot, returning
whether a path was found.  On failure the C++ body resets `path`,
`targetid` and `destination` — and nothing else. -/
def runPathfinding (findPathResult : Option (List Point2d)) (r : Robot) :
    Robot :=
  match findPathResult with
  | none => { r with path := [], targetid := -1, destination := ⟨-1, -1⟩ }
  | some p => { r with path := p }

/-- The `IDLE` scheduling branch of `GameManager::RobotControl`
(gameManager.cpp lines 310–331), given the scheduler's action and the
pathfinder's result. -/
def robotControlIdleBranch (actionTargetId : Int) (actionDest : Point2d)
    (findPathResult : Option (List Point2d)) (r : Robot) : Robot :=
  match findPathResult with
  | some p =>
    { r with path := p, status := RobotStatus.MOVING_TO_GOODS,
             targetid := actionTargetId, destination := actionDest }
  | none =>
    { r with path := [], status := RobotStatus.IDLE, targetid := -1 }

/-- The re-pathfinding step of the `MOVING_TO_GOODS` branch of
`GameManager::RobotControl` (gameManager.cpp lines 366–377). -/
def robotControlGoodsRefind (findPathResult : Option (List Point2d))
    (r : Robot) : Robot :=
  if r.pos ≠ r.destination ∧ r.path = [] then
    match findPathResult with
    | some p => { r with path := p }
    | none => { r with status := RobotStatus.IDLE, targetid := -1 }
  else r

/-- The berth-assignment step of the `MOVING_TO_BERTH` branch of
`GameManager::RobotControl` (gameManager.cpp lines 403–417). -/
def robotControlBerthAssign (actionTargetId : Int) (actionDest : Point2d)
    (findPathResult : Option (List Point2d)) (r : Robot) : Robot :=
  match findPathResult with
  | some p =>
    { r with path := p, status := RobotStatus.MOVING_TO_BERTH,
             targetid := actionTargetId, destination := actionDest }
  | none => { r with targetid := -1 }

/-- The re-pathfinding step of the `MOVING_TO_BERTH` branch of
`GameManager::RobotControl` (gameManager.cpp lines 420–430). -/
def robotControlBerthRefind (findPathResult : Option (List Point2d))
    (r : Robot) : Robot :=
  if r.pos ≠ r.destination ∧ r.path = [] then
    match findPathResult with
    | some p => { r with path := p }
    | none => { r with targetid := -1 }
  else r

/-- A robot used by the C6 counterexample: moving to berth 5, with an
empty path and a pending destination. -/
def berthBoundRobot : Robot :=
  { id := 0
    pos := ⟨3, 3⟩
    carryingItem := 1
    carryingItemId := 7
    targetid := 5
    destination := ⟨9, 9⟩
    path := []
    nextPos := ⟨3, 3⟩
    status := RobotStatus.MOVING_TO_BERTH
    state := 1 }

/-- Claim C6 counterexample: when pathfinding fails for a robot that is
moving to a berth, `RobotController::runPathfinding` resets the target and
empties the path, but the robot's status stays `MOVING_TO_BERTH` instead
of returning to Idle as the claim demands. -/
theorem claim_C6_counterexample :
    (runPathfinding none berthBoundRobot).targetid = -1 ∧
    (runPathfinding none berthBoundRobot).path = [] ∧
    (runPathfinding none berthBoundRobot).status =
      RobotStatus.MOVING_TO_BERTH ∧
    (runPathfinding none berthBoundRobot).status ≠ RobotStatus.IDLE := by
  refine ⟨by decide, by decide, by decide, by decide⟩

/-- Claim C6 (amended): whenever the pathfinder returns a failure reason,
the caller clears the robot's target id (set to −1); the path is emptied at
the `runPathfinding`, idle-scheduling and moving-to-goods sites (in the
latter it is already empty when the site runs), but only the
idle-scheduling and moving-to-goods sites return the robot to Idle —
`RobotController::runPathfinding` and both moving-to-berth sites leave the
robot's status unchanged. -/
theorem claim_C6_amended (r : Robot) :
    ((runPathfinding none r).targetid = -1 ∧
      (runPathfinding none r).path = [] ∧
      (runPathfinding none r).status = r.status) ∧
    (∀ tid dest, (robotControlIdleBranch tid dest none r).targetid = -1 ∧
      (robotControlIdleBranch tid dest none r).path = [] ∧
      (robotControlIdleBranch tid dest none r).status = RobotStatus.IDLE) ∧
    (r.pos ≠ r.destination ∧ r.path = [] →
      (robotControlGoodsRefind none r).targetid = -1 ∧
      (robotControlGoodsRefind none r).path = [] ∧
      (robotControlGoodsRefind none r).status = RobotStatus.IDLE) ∧
    (∀ tid dest, (robotControlBerthAssign tid dest none r).targetid = -1 ∧
      (robotControlBerthAssign tid dest none r).status = r.status) ∧
    (r.pos ≠ r.destination ∧ r.path = [] →
      (robotControlBerthRefind none r).targetid = -1 ∧
      (robotControlBerthRefind none r).path = [] ∧
      (robotControlBerthRefind none r).status = r.status) := by
  refine ⟨⟨rfl, rfl, rfl⟩, fun tid dest => ⟨rfl, rfl, rfl⟩, ?_,
    fun tid dest => ⟨rfl, rfl⟩, ?_⟩
  · intro h
    unfold robotControlGoodsRefind
    rw [if_pos h]
    exact ⟨rfl, h.2, rfl⟩
  · intro h
    unfold robotControlBerthRefind
    rw [if_pos h]
    exact ⟨rfl, h.2, rfl⟩

/-- Witness for the amended C6: the moving-to-goods refind site applied to
a concrete robot with an empty path away from its destination. -/
theorem claim_C6_amended_witness :
    (berthBoundRobot.pos ≠ berthBoundRobot.destination ∧
      berthBoundRobot.path = []) ∧
    (robotControlGoodsRefind none berthBoundRobot).status =
      RobotStatus.IDLE :=
  ⟨⟨by decide, rfl⟩,
    ((claim_C6_amended berthBoundRobot).2.2.1 ⟨by decide, rfl⟩).2.2⟩

end SmartPort

namespace SmartPort

/-! ### Ships (`ship.h`) -/

/-- `ShipStatusSpace::ShipStatus` (ship.h lines 11–19). -/
inductive ShipStatus where
  | IDLE
  | MOVING_TO_BERTH
  | MOVING_TO_DELIVERY
  | LOADING
  deriving DecidableEq, Repr

/-- The `Ship` class fields (ship.h lines 123–148). -/
structure Ship where
  id : Nat
  goodsCount : Int
  locAndDir : VectorPosition
  state : Int
  berthId : Int
  shipStatus : ShipStatus
  loadGoodValue : Int
  remainingTransportTime : Int
  destination : VectorPosition
  shouldDept : Bool
  deliveryId : Int
  stillnessFrames : Int
  nextLocAndDir : VectorPosition
  path : List VectorPosition
  avoidNum : Int
  deriving DecidableEq, Repr

/-- `Ship::moveToTemporaryPosition` (ship.h lines 413–421): push the
current pose, then the temporary pose twice, onto the back of the path and
set `nextLocAndDir` to the temporary pose. -/
def Ship.moveToTemporaryPosition (s : Ship) (tempPos : VectorPosition) :
    Ship :=
  { s with
      path := ((s.path ++ [s.locAndDir]) ++ [tempPos]) ++ [tempPos]
      nextLocAndDir := tempPos }

/-- Claim C10: `Ship::moveToTemporaryPosition(tempPos)` appends exactly
three entries to the path — the current pose, then `tempPos` twice — and
sets `nextLocAndDir` to `tempPos`; consuming the path from the back yields
`tempPos`, `tempPos` again, then the pose held at call time; no other ship
field is modified. -/
theorem claim_C10_moveToTemporaryPosition (s : Ship)
    (tempPos : VectorPosition) :
    (s.moveToTemporaryPosition tempPos).path =
      s.path ++ [s.locAndDir, tempPos, tempPos] ∧
    (s.moveToTemporaryPosition tempPos).path.reverse =
      tempPos :: tempPos :: s.locAndDir :: s.path.reverse ∧
    (s.moveToTemporaryPosition tempPos).path.length = s.path.length + 3 ∧
    (s.moveToTemporaryPosition tempPos).nextLocAndDir = tempPos ∧
    (s.moveToTemporaryPosition tempPos).id = s.id ∧
    (s.moveToTemporaryPosition tempPos).goodsCount = s.goodsCount ∧
    (s.moveToTemporaryPosition tempPos).locAndDir = s.locAndDir ∧
    (s.moveToTemporaryPosition tempPos).state = s.state ∧
    (s.moveToTemporaryPosition tempPos).berthId = s.berthId ∧
    (s.moveToTemporaryPosition tempPos).shipStatus = s.shipStatus ∧
    (s.moveToTemporaryPosition tempPos).loadGoodValue = s.loadGoodValue ∧
    (s.moveToTemporaryPosition tempPos).remainingTransportTime =
      s.remainingTransportTime ∧
    (s.moveToTemporaryPosition tempPos).destination = s.destination ∧
    (s.moveToTemporaryPosition tempPos).shouldDept = s.shouldDept ∧
    (s.moveToTemporaryPosition tempPos).deliveryId = s.deliveryId ∧
    (s.moveToTemporaryPosition tempPos).stillnessFrames =
      s.stillnessFrames ∧
    (s.moveToTemporaryPosition tempPos).avoidNum = s.avoidNum := by
  unfold Ship.moveToTemporaryPosition
  refine ⟨by simp, by simp, by simp, rfl, rfl, rfl, rfl, rfl, rfl, rfl,
    rfl, rfl, rfl, rfl, rfl, rfl, rfl⟩

end SmartPort

namespace SmartPort

/-! ### Claim C9: `SeaRoute::getPath` -/

/-- The memoized route for a `(start, destination)` pair: the stored path
when present, `[]` otherwise (reading `SeaRoute::seaRoutes`, ship.h line
35). -/
def memoPath
    (seaRoutes : List ((VectorPosition × VectorPosition) × List VectorPosition))
    (start destination : VectorPosition) : List VectorPosition :=
  match alistFind seaRoutes (start, destination) with
  | some q => q
  | none => []

/-- The direction-retry loop of `SeaRoute::getPath` (ship.h lines 87–95):
overwrite `destination.direction` with each direction in turn, look the
pair up, and return as soon as the looked-up path is non-empty.  The
by-reference `destination` is threaded through and returned. -/
def getPathLoop
    (seaRoutes : List ((VectorPosition × VectorPosition) × List VectorPosition))
    (start : VectorPosition) :
    List Direction → VectorPosition → List VectorPosition →
      List VectorPosition × VectorPosition
  | [], destination, path => (path, destination)
  | d :: ds, destination, path =>
    let destination' : VectorPosition := { destination with direction := d }
    let path' : List VectorPosition :=
      match alistFind seaRoutes (start, destination') with
      | some q => q
      | none => path
    if path' ≠ [] then (path', destination')
    else getPathLoop seaRoutes start ds destination' path'

/-- `SeaRoute::getPath` (ship.h lines 75–97): return the memoized path for
the exact pair when non-empty, otherwise retry with the destination's
direction overwritten by East, West, North, South in that order.  The
second component is the final value of the mutated `destination`
argument. -/
def getPath
    (seaRoutes : List ((VectorPosition × VectorPosition) × List VectorPosition))
    (start destination : VectorPosition) :
    List VectorPosition × VectorPosition :=
  let path : List VectorPosition :=
    match alistFind seaRoutes (start, destination) with
    | some q => q
    | none => []
  if path ≠ [] then (path, destination)
  else
    getPathLoop seaRoutes start
      [Direction.EAST, Direction.WEST, Direction.NORTH, Direction.SOUTH]
      destination path

theorem getPathLoop_all_empty
    (seaRoutes : List ((VectorPosition × VectorPosition) × List VectorPosition))
    (start : VectorPosition) (ds : List Direction) (dest : VectorPosition)
    (h : ∀ d ∈ ds, memoPath seaRoutes start ⟨dest.pos, d⟩ = []) :
    getPathLoop seaRoutes start ds dest [] =
      ([], match ds.getLast? with
           | some d => (⟨dest.pos, d⟩ : VectorPosition)
           | none => dest) := by
  induction ds generalizing dest with
  | nil => rfl
  | cons d0 ds ih =>
    have hd0 : memoPath seaRoutes start ⟨dest.pos, d0⟩ = [] :=
      h d0 (List.mem_cons_self d0 ds)
    unfold getPathLoop
    dsimp only
    have hpath' : (match alistFind seaRoutes
        (start, ({ dest with direction := d0 } : VectorPosition)) with
        | some q => q
        | none => ([] : List VectorPosition)) =
        memoPath seaRoutes start ⟨dest.pos, d0⟩ := rfl
    rw [hpath', hd0]
    simp only [ne_eq, not_true_eq_false, if_false]
    have hrest : ∀ d ∈ ds, memoPath seaRoutes start
        ⟨(⟨dest.pos, d0⟩ : VectorPosition).pos, d⟩ = [] := by
      intro d hd
      exact h d (List.mem_cons_of_mem d0 hd)
    rw [ih ⟨dest.pos, d0⟩ hrest]
    cases ds with
    | nil => rfl
    | cons d1 ds' =>
      rcases hlast : (d1 :: ds').getLast? with _ | x
      · simp at hlast
      · rw [List.getLast?_cons_cons, hlast]

theorem getPathLoop_first_success
    (seaRoutes : List ((VectorPosition × VectorPosition) × List VectorPosition))
    (start : VectorPosition) (ds : List Direction) (dest : VectorPosition)
    (d : Direction)
    (h : ds.find? (fun d' =>
        memoPath seaRoutes start ⟨dest.pos, d'⟩ ≠ []) = some d) :
    getPathLoop seaRoutes start ds dest [] =
      (memoPath seaRoutes start ⟨dest.pos, d⟩,
        (⟨dest.pos, d⟩ : VectorPosition)) := by
  induction ds generalizing dest with
  | nil => exact absurd h (by simp)
  | cons d0 ds ih =>
    unfold getPathLoop
    dsimp only
    have hpath' : (match alistFind seaRoutes
        (start, ({ dest with direction := d0 } : VectorPosition)) with
        | some q => q
        | none => ([] : List VectorPosition)) =
        memoPath seaRoutes start ⟨dest.pos, d0⟩ := rfl
    rw [hpath']
    by_cases hd0 : memoPath seaRoutes start ⟨dest.pos, d0⟩ ≠ []
    · obtain rfl : d0 = d := by
        rw [List.find?_cons_of_pos _ (by simpa using hd0)] at h
        exact Option.some.inj h
      rw [if_pos hd0]
    · rw [List.find?_cons_of_neg _ (by simpa using hd0)] at h
      push_neg at hd0
      rw [hd0]
      simp only [ne_eq, not_true_eq_false, if_false]
      have := ih ⟨dest.pos, d0⟩ (by simpa using h)
      simpa using this

/-- Claim C9: when `SeaRoute::getPath` finds no memoized entry for the
exact `(start, destination)` pair, it retries with the destination's
direction overwritten by East, West, North, South in that order and
returns the first memoized non-empty path found (or an empty path when
none exists, the destination then ending at South); consequently the
by-reference destination argument is mutated in place, and the returned
path may end in an orientation different from the one originally
requested. -/
theorem claim_C9_getPath
    (seaRoutes : List ((VectorPosition × VectorPosition) × List VectorPosition))
    (start destination : VectorPosition)
    (hmiss : alistFind seaRoutes (start, destination) = none) :
    ((∀ d ∈ [Direction.EAST, Direction.WEST, Direction.NORTH,
        Direction.SOUTH],
        memoPath seaRoutes start ⟨destination.pos, d⟩ = []) →
      getPath seaRoutes start destination =
        ([], (⟨destination.pos, Direction.SOUTH⟩ : VectorPosition))) ∧
    (∀ d, [Direction.EAST, Direction.WEST, Direction.NORTH,
        Direction.SOUTH].find? (fun d' =>
          memoPath seaRoutes start ⟨destination.pos, d'⟩ ≠ []) = some d →
      getPath seaRoutes start destination =
        (memoPath seaRoutes start ⟨destination.pos, d⟩,
          (⟨destination.pos, d⟩ : VectorPosition))) ∧
    (∃ (routes : List ((VectorPosition × VectorPosition) ×
        List VectorPosition)) (s dst : VectorPosition),
      alistFind routes (s, dst) = none ∧
      (getPath routes s dst).1 ≠ [] ∧
      (getPath routes s dst).2.direction ≠ dst.direction) := by
  have hstart : getPath seaRoutes start destination =
      getPathLoop seaRoutes start
        [Direction.EAST, Direction.WEST, Direction.NORTH, Direction.SOUTH]
        destination [] := by
    unfold getPath
    rw [hmiss]
    simp
  refine ⟨?_, ?_, ?_⟩
  · intro hall
    rw [hstart, getPathLoop_all_empty seaRoutes start _ destination hall]
    rfl
  · intro d hd
    rw [hstart, getPathLoop_first_success seaRoutes start _ destination d hd]
  · refine ⟨[((⟨⟨0, 0⟩, Direction.EAST⟩, ⟨⟨5, 5⟩, Direction.WEST⟩),
        [⟨⟨1, 1⟩, Direction.EAST⟩])],
      ⟨⟨0, 0⟩, Direction.EAST⟩, ⟨⟨5, 5⟩, Direction.EAST⟩, ?_, ?_, ?_⟩ <;>
      decide

/-- Witness for C9: a memo store holding only the pair with a West-facing
destination; the exact East-facing lookup misses, the retry loop stops at
West and the destination comes back mutated to West. -/
theorem claim_C9_getPath_witness :
    getPath
      [((⟨⟨0, 0⟩, Direction.EAST⟩, ⟨⟨5, 5⟩, Direction.WEST⟩),
        [⟨⟨1, 1⟩, Direction.EAST⟩])]
      ⟨⟨0, 0⟩, Direction.EAST⟩ ⟨⟨5, 5⟩, Direction.EAST⟩ =
      (memoPath
        [((⟨⟨0, 0⟩, Direction.EAST⟩, ⟨⟨5, 5⟩, Direction.WEST⟩),
          [⟨⟨1, 1⟩, Direction.EAST⟩])]
        ⟨⟨0, 0⟩, Direction.EAST⟩ ⟨⟨5, 5⟩, Direction.WEST⟩,
        (⟨⟨5, 5⟩, Direction.WEST⟩ : VectorPosition)) :=
  (claim_C9_getPath _ ⟨⟨0, 0⟩, Direction.EAST⟩ ⟨⟨5, 5⟩, Direction.EAST⟩
    (by decide)).2.1 Direction.WEST (by decide)

end SmartPort

namespace SmartPort

/-! ### Claim C2: `Map::computeDistancesToBerthViaBFS`

The BFS (map.cpp lines 96–124) uses `INT_MAX` as the "unvisited/∞"
sentinel.  Distances are `Nat`s; the loop is given explicit fuel
`rows·cols + |positions|`, which is proven to dominate the strictly
decreasing measure `|unvisited in-bounds cells| + |queue|`, so the fuel
never runs out before the queue drains. -/

/-- The `INT_MAX` sentinel (climits). -/
def INTMAX : Nat := 2147483647

/-- Pointwise update of a distance field, modelling
`dis[next.x][next.y] = v`. -/
def updateDis (dis : Point2d → Nat) (next : Point2d) (v : Nat) :
    Point2d → Nat :=
  fun p => if p = next then v else dis p

/-- The inner `for (dir : DIRS)` loop of the BFS (map.cpp lines 113–121):
relax each neighbor of `current` that is in-bounds, passable and still at
`INT_MAX`, assigning it `dis[current] + 1` and pushing it. -/
def bfsRelax (m : MapState) (current : Point2d) :
    List Point2d → (Point2d → Nat) × List Point2d →
      (Point2d → Nat) × List Point2d
  | [], dq => dq
  | dir :: dirs, dq =>
    let next : Point2d := ⟨current.x + dir.x, current.y + dir.y⟩
    if m.valid next ∧ dq.1 next = INTMAX then
      bfsRelax m current dirs
        (updateDis dq.1 next (dq.1 current + 1), dq.2 ++ [next])
    else bfsRelax m current dirs dq

/-- The BFS work loop (map.cpp lines 109–122): pop the queue front and
relax its neighbors, with explicit fuel. -/
def bfsLoop (m : MapState) :
    Nat → (Point2d → Nat) → List Point2d → (Point2d → Nat)
  | 0, dis, _ => dis
  | Nat.succ fuel, dis, q =>
    match q with
    | [] => dis
    | current :: rest =>
      let dq := bfsRelax m current DIRS (dis, rest)
      bfsLoop m fuel dq.1 dq.2

/-- The seeding loop of the BFS (map.cpp lines 101–108): each in-bounds
passable seed gets distance 0 and is pushed. -/
def bfsSeed (m : MapState) :
    List Point2d → (Point2d → Nat) × List Point2d →
      (Point2d → Nat) × List Point2d
  | [], dq => dq
  | pos :: rest, dq =>
    if m.valid pos then
      bfsSeed m rest (updateDis dq.1 pos 0, dq.2 ++ [pos])
    else bfsSeed m rest dq

/-- `Map::computeDistancesToBerthViaBFS` (map.cpp lines 96–124), returning
the distance matrix stored into `berthDistanceMap[id]` as a function of
the cell.  All cells start at `INT_MAX`. -/
def computeDistancesToBerthViaBFS (m : MapState)
    (positions : List Point2d) : Point2d → Nat :=
  let dq := bfsSeed m positions (fun _ => INTMAX, [])
  bfsLoop m (m.rows * m.cols + positions.length) dq.1 dq.2

/-- One 4-connected step: `q` is `p` plus one of the four `DIRS`
offsets. -/
def Step (p q : Point2d) : Prop :=
  ∃ dir ∈ DIRS, q = ⟨p.x + dir.x, p.y + dir.y⟩

/-- `Reach m positions n c`: there is a 4-connected walk of length `n`
through in-bounds passable cells, from some in-bounds passable seed of
`positions` to `c`. -/
inductive Reach (m : MapState) (positions : List Point2d) :
    Nat → Point2d → Prop
  | seed (p : Point2d) : p ∈ positions → m.valid p →
      Reach m positions 0 p
  | step {n : Nat} {p q : Point2d} : Reach m positions n p → Step p q →
      m.valid q → Reach m positions (n + 1) q

theorem Reach.valid_of {m : MapState} {positions : List Point2d} {n : Nat}
    {c : Point2d} (h : Reach m positions n c) : m.valid c := by
  cases h with
  | seed p hp hv => exact hv
  | step hr hs hv => exact hv

/-- The in-bounds cells of the map, as a finite set. -/
def gridPoints (m : MapState) : Finset Point2d :=
  ((Finset.range m.rows) ×ˢ (Finset.range m.cols)).image
    (fun ij => ⟨(ij.1 : Int), (ij.2 : Int)⟩)

theorem mem_gridPoints (m : MapState) (p : Point2d) :
    p ∈ gridPoints m ↔ m.inBounds p := by
  obtain ⟨px, py⟩ := p
  unfold gridPoints MapState.inBounds
  rw [Finset.mem_image]
  constructor
  · rintro ⟨⟨i, j⟩, hij, heq⟩
    rw [Finset.mem_product, Finset.mem_range, Finset.mem_range] at hij
    obtain ⟨hx, hy⟩ := Point2d.mk.injEq .. |>.mp heq
    refine ⟨?_, ?_, ?_, ?_⟩ <;> dsimp only <;> omega
  · rintro ⟨h1, h2, h3, h4⟩
    dsimp only at h1 h2 h3 h4
    refine ⟨(px.toNat, py.toNat), ?_, ?_⟩
    · rw [Finset.mem_product, Finset.mem_range, Finset.mem_range]
      constructor <;> omega
    · simp only [Point2d.mk.injEq]
      constructor <;> omega

theorem card_gridPoints_le (m : MapState) :
    (gridPoints m).card ≤ m.rows * m.cols := by
  calc (gridPoints m).card
      ≤ ((Finset.range m.rows) ×ˢ (Finset.range m.cols)).card :=
        Finset.card_image_le
    _ = m.rows * m.cols := by rw [Finset.card_product, Finset.card_range,
        Finset.card_range]

/-- Number of settled (non-`INT_MAX`) in-bounds cells. -/
def settledCard (m : MapState) (dis : Point2d → Nat) : Nat :=
  ((gridPoints m).filter (fun p => dis p ≠ INTMAX)).card

/-- Number of unsettled in-bounds cells; together with the queue length
this is the loop's termination measure. -/
def unsettledCard (m : MapState) (dis : Point2d → Nat) : Nat :=
  ((gridPoints m).filter (fun p => dis p = INTMAX)).card

theorem settledCard_le (m : MapState) (dis : Point2d → Nat) :
    settledCard m dis ≤ m.rows * m.cols :=
  le_trans (Finset.card_filter_le _ _) (card_gridPoints_le m)

theorem settled_updateDis (dis : Point2d → Nat) (next : Point2d) (v : Nat)
    (hv : v ≠ INTMAX) (p : Point2d) (hp : dis p ≠ INTMAX) :
    updateDis dis next v p ≠ INTMAX := by
  unfold updateDis
  by_cases h : p = next <;> simp [h, hv, hp]

theorem updateDis_same (dis : Point2d → Nat) (next : Point2d) (v : Nat) :
    updateDis dis next v next = v := by
  simp [updateDis]

theorem updateDis_other (dis : Point2d → Nat) (next : Point2d) (v : Nat)
    (p : Point2d) (hp : p ≠ next) : updateDis dis next v p = dis p := by
  simp [updateDis, hp]

theorem settledCard_updateDis (m : MapState) (dis : Point2d → Nat)
    (next : Point2d) (v : Nat) (hmem : next ∈ gridPoints m)
    (hun : dis next = INTMAX) (hv : v ≠ INTMAX) :
    settledCard m (updateDis dis next v) = settledCard m dis + 1 := by
  unfold settledCard
  have hset : (gridPoints m).filter
      (fun p => updateDis dis next v p ≠ INTMAX) =
      insert next ((gridPoints m).filter (fun p => dis p ≠ INTMAX)) := by
    ext p
    rw [Finset.mem_insert, Finset.mem_filter, Finset.mem_filter]
    constructor
    · rintro ⟨hpg, hps⟩
      by_cases h : p = next
      · exact Or.inl h
      · rw [updateDis_other dis next v p h] at hps
        exact Or.inr ⟨hpg, hps⟩
    · rintro (rfl | ⟨hpg, hps⟩)
      · exact ⟨hmem, by rw [updateDis_same]; exact hv⟩
      · refine ⟨hpg, ?_⟩
        by_cases h : p = next
        · subst h
          exact absurd hun hps
        · rw [updateDis_other dis next v p h]
          exact hps
  rw [hset, Finset.card_insert_of_not_mem]
  rw [Finset.mem_filter]
  rintro ⟨-, hmemf⟩
  exact hmemf hun

theorem unsettledCard_updateDis (m : MapState) (dis : Point2d → Nat)
    (next : Point2d) (v : Nat) (hmem : next ∈ gridPoints m)
    (hun : dis next = INTMAX) (hv : v ≠ INTMAX) :
    unsettledCard m (updateDis dis next v) + 1 = unsettledCard m dis := by
  unfold unsettledCard
  have hset : (gridPoints m).filter (fun p => dis p = INTMAX) =
      insert next ((gridPoints m).filter
        (fun p => updateDis dis next v p = INTMAX)) := by
    ext p
    rw [Finset.mem_insert, Finset.mem_filter, Finset.mem_filter]
    constructor
    · rintro ⟨hpg, hps⟩
      by_cases h : p = next
      · exact Or.inl h
      · exact Or.inr ⟨hpg, by rw [updateDis_other dis next v p h]; exact hps⟩
    · rintro (rfl | ⟨hpg, hps⟩)
      · exact ⟨hmem, hun⟩
      · refine ⟨hpg, ?_⟩
        by_cases h : p = next
        · subst h
          rw [updateDis_same] at hps
          exact absurd hps hv
        · rw [updateDis_other dis next v p h] at hps
          exact hps
  rw [hset, Finset.card_insert_of_not_mem]
  rw [Finset.mem_filter]
  rintro ⟨-, hmemf⟩
  rw [updateDis_same] at hmemf
  exact hv hmemf

end SmartPort

namespace SmartPort

/-- Invariant of the BFS between loop iterations. -/
structure BfsInv (m : MapState) (positions : List Point2d)
    (dis : Point2d → Nat) (q : List Point2d) : Prop where
  seeds_settled : ∀ p ∈ positions, m.valid p → dis p ≠ INTMAX
  queue_settled : ∀ c ∈ q, dis c ≠ INTMAX
  settled_correct : ∀ c, dis c ≠ INTMAX →
    m.valid c ∧ Reach m positions (dis c) c ∧
      (∀ k, Reach m positions k c → dis c ≤ k)
  queue_sorted : q.Pairwise (fun a b => dis a ≤ dis b)
  queue_close : ∀ a ∈ q, ∀ b ∈ q, dis b ≤ dis a + 1
  expanded_closed : ∀ c, dis c ≠ INTMAX → c ∉ q →
    ∀ dir ∈ DIRS, m.valid ⟨c.x + dir.x, c.y + dir.y⟩ →
      dis ⟨c.x + dir.x, c.y + dir.y⟩ ≠ INTMAX ∧
      dis ⟨c.x + dir.x, c.y + dir.y⟩ ≤ dis c + 1
  expanded_le_queued : ∀ c, dis c ≠ INTMAX → c ∉ q →
    ∀ b ∈ q, dis c ≤ dis b
  settled_lt : ∀ c, dis c ≠ INTMAX → dis c < settledCard m dis

/-- Invariant of the BFS while the dequeued cell `cur` is being expanded
(its queue bounds are expressed relative to `dis cur`). -/
structure BfsMid (m : MapState) (positions : List Point2d) (cur : Point2d)
    (dis : Point2d → Nat) (q : List Point2d) : Prop where
  seeds_settled : ∀ p ∈ positions, m.valid p → dis p ≠ INTMAX
  queue_settled : ∀ c ∈ q, dis c ≠ INTMAX
  settled_correct : ∀ c, dis c ≠ INTMAX →
    m.valid c ∧ Reach m positions (dis c) c ∧
      (∀ k, Reach m positions k c → dis c ≤ k)
  cur_settled : dis cur ≠ INTMAX
  queue_sorted : q.Pairwise (fun a b => dis a ≤ dis b)
  queue_lower : ∀ c ∈ q, dis cur ≤ dis c
  queue_upper : ∀ c ∈ q, dis c ≤ dis cur + 1
  old_expanded : ∀ c, dis c ≠ INTMAX → c ∉ q → c ≠ cur →
    ∀ dir ∈ DIRS, m.valid ⟨c.x + dir.x, c.y + dir.y⟩ →
      dis ⟨c.x + dir.x, c.y + dir.y⟩ ≠ INTMAX ∧
      dis ⟨c.x + dir.x, c.y + dir.y⟩ ≤ dis c + 1
  old_le_cur : ∀ c, dis c ≠ INTMAX → c ∉ q → c ≠ cur → dis c ≤ dis cur
  settled_lt : ∀ c, dis c ≠ INTMAX → dis c < settledCard m dis

/-- Key BFS lemma: while `cur` is being expanded, every still-unsettled
cell is at shortest distance at least `dis cur + 1` from the seeds. -/
theorem reach_lower_bound {m : MapState} {positions : List Point2d}
    {cur : Point2d} {dis : Point2d → Nat} {q : List Point2d}
    (mid : BfsMid m positions cur dis q) :
    ∀ (k : Nat) (u : Point2d), Reach m positions k u → dis u = INTMAX →
      dis cur + 1 ≤ k := by
  intro k u hr
  induction hr with
  | seed p hp hv =>
    intro hu
    exact absurd hu (mid.seeds_settled p hp hv)
  | step hr hs hv ih =>
    intro hu
    rename_i n p w
    by_cases hp : dis p = INTMAX
    · exact Nat.le_succ_of_le (ih hp)
    · by_cases hpq : p ∈ q
      · have h1 : dis cur ≤ dis p := mid.queue_lower p hpq
        have h2 : dis p ≤ n := (mid.settled_correct p hp).2.2 n hr
        omega
      · by_cases hpc : p = cur
        · subst hpc
          have h2 : dis p ≤ n := (mid.settled_correct p hp).2.2 n hr
          omega
        · obtain ⟨dir, hdir, rfl⟩ := hs
          have := (mid.old_expanded p hp hpq hpc dir hdir hv).1
          exact absurd hu this

/-- With an empty queue, every reachable cell is settled. -/
theorem settled_of_reach_empty {m : MapState} {positions : List Point2d}
    {dis : Point2d → Nat} (inv : BfsInv m positions dis []) :
    ∀ (n : Nat) (c : Point2d), Reach m positions n c → dis c ≠ INTMAX := by
  intro n c hr
  induction hr with
  | seed p hp hv => exact inv.seeds_settled p hp hv
  | step hr hs hv ih =>
    rename_i n' p w
    obtain ⟨dir, hdir, rfl⟩ := hs
    exact (inv.expanded_closed p ih (List.not_mem_nil p) dir hdir hv).1

/-- The BFS postcondition: the distance field holds exactly the shortest
seed distances, with `INT_MAX` on the unreachable cells. -/
def BfsFinal (m : MapState) (positions : List Point2d)
    (dis : Point2d → Nat) : Prop :=
  ∀ c, (dis c ≠ INTMAX →
          Reach m positions (dis c) c ∧
            (∀ k, Reach m positions k c → dis c ≤ k)) ∧
       (dis c = INTMAX → ∀ n, ¬ Reach m positions n c)

theorem final_of_inv_empty {m : MapState} {positions : List Point2d}
    {dis : Point2d → Nat} (inv : BfsInv m positions dis []) :
    BfsFinal m positions dis := by
  intro c
  constructor
  · intro hc
    exact ⟨(inv.settled_correct c hc).2.1, (inv.settled_correct c hc).2.2⟩
  · intro hc n hr
    exact absurd hc (by simpa using settled_of_reach_empty inv n c hr)

end SmartPort

namespace SmartPort

theorem BfsMid.settle {m : MapState} {positions : List Point2d}
    {cur : Point2d} {dis : Point2d → Nat} {q : List Point2d}
    (hsize : m.rows * m.cols < INTMAX)
    (mid : BfsMid m positions cur dis q) (dir : Point2d)
    (hdir : dir ∈ DIRS) (hv : m.valid ⟨cur.x + dir.x, cur.y + dir.y⟩)
    (hun : dis ⟨cur.x + dir.x, cur.y + dir.y⟩ = INTMAX) :
    BfsMid m positions cur
      (updateDis dis ⟨cur.x + dir.x, cur.y + dir.y⟩ (dis cur + 1))
      (q ++ [⟨cur.x + dir.x, cur.y + dir.y⟩]) := by
  set next : Point2d := ⟨cur.x + dir.x, cur.y + dir.y⟩ with hnextdef
  set dis1 : Point2d → Nat := updateDis dis next (dis cur + 1) with hdis1
  have hvne : dis cur + 1 ≠ INTMAX := by
    have h1 : dis cur < settledCard m dis := mid.settled_lt cur mid.cur_settled
    have h2 : settledCard m dis ≤ m.rows * m.cols := settledCard_le m dis
    omega
  have hcurne : cur ≠ next := by
    intro h
    rw [← h] at hun
    exact mid.cur_settled hun
  have dnext : dis1 next = dis cur + 1 := updateDis_same dis next _
  have dother : ∀ p, p ≠ next → dis1 p = dis p :=
    fun p hp => updateDis_other dis next _ p hp
  have dcur : dis1 cur = dis cur := dother cur hcurne
  have hqnotnext : ∀ c ∈ q, c ≠ next := by
    intro c hc h
    apply mid.queue_settled c hc
    rw [h]
    exact hun
  have hreach : Reach m positions (dis cur + 1) next :=
    Reach.step (mid.settled_correct cur mid.cur_settled).2.1
      ⟨dir, hdir, rfl⟩ hv
  have hsettled1 : ∀ p, dis p ≠ INTMAX → dis1 p ≠ INTMAX :=
    fun p hp => settled_updateDis dis next _ hvne p hp
  have hback : ∀ p, p ≠ next → dis1 p ≠ INTMAX → dis p ≠ INTMAX := by
    intro p hp h1
    rwa [dother p hp] at h1
  have hcardeq : settledCard m dis1 = settledCard m dis + 1 :=
    settledCard_updateDis m dis next _ ((mem_gridPoints m next).mpr hv.1)
      hun hvne
  refine ⟨?_, ?_, ?_, ?_, ?_, ?_, ?_, ?_, ?_, ?_⟩
  · exact fun p hp hvp => hsettled1 p (mid.seeds_settled p hp hvp)
  · intro c hc
    rcases List.mem_append.mp hc with hcq | hcn
    · exact hsettled1 c (mid.queue_settled c hcq)
    · obtain rfl : c = next := by simpa using hcn
      rw [dnext]
      exact hvne
  · intro c hc
    by_cases hcnext : c = next
    · subst hcnext
      rw [dnext]
      exact ⟨hv, hreach, fun k hk => reach_lower_bound mid k next hk hun⟩
    · have hcold : dis c ≠ INTMAX := hback c hcnext hc
      rw [dother c hcnext]
      exact mid.settled_correct c hcold
  · rw [dcur]
    exact mid.cur_settled
  · rw [List.pairwise_append]
    refine ⟨?_, List.pairwise_singleton _ _, ?_⟩
    · refine List.Pairwise.imp_of_mem ?_ mid.queue_sorted
      intro a b ha hb hab
      rw [dother a (hqnotnext a ha), dother b (hqnotnext b hb)]
      exact hab
    · intro a ha b hb
      obtain rfl : b = next := by simpa using hb
      rw [dother a (hqnotnext a ha), dnext]
      exact mid.queue_upper a ha
  · intro c hc
    rw [dcur]
    rcases List.mem_append.mp hc with hcq | hcn
    · rw [dother c (hqnotnext c hcq)]
      exact mid.queue_lower c hcq
    · obtain rfl : c = next := by simpa using hcn
      rw [dnext]
      exact Nat.le_succ _
  · intro c hc
    rw [dcur]
    rcases List.mem_append.mp hc with hcq | hcn
    · rw [dother c (hqnotnext c hcq)]
      exact mid.queue_upper c hcq
    · obtain rfl : c = next := by simpa using hcn
      rw [dnext]
  · intro c hc hcq1 hccur dir' hdir' hv'
    have hcnext : c ≠ next := by
      intro h
      exact hcq1 (by rw [h]; exact List.mem_append.mpr (Or.inr (by simp)))
    have hcold : dis c ≠ INTMAX := hback c hcnext hc
    have hcq : c ∉ q := fun h => hcq1 (List.mem_append.mpr (Or.inl h))
    have hold := mid.old_expanded c hcold hcq hccur dir' hdir' hv'
    have hwnext : (⟨c.x + dir'.x, c.y + dir'.y⟩ : Point2d) ≠ next := by
      intro h
      rw [h] at hold
      exact hold.1 hun
    rw [dother c hcnext, dother _ hwnext]
    exact hold
  · intro c hc hcq1 hccur
    have hcnext : c ≠ next := by
      intro h
      exact hcq1 (by rw [h]; exact List.mem_append.mpr (Or.inr (by simp)))
    have hcq : c ∉ q := fun h => hcq1 (List.mem_append.mpr (Or.inl h))
    rw [dother c hcnext, dcur]
    exact mid.old_le_cur c (hback c hcnext hc) hcq hccur
  · intro c hc
    rw [hcardeq]
    by_cases hcnext : c = next
    · subst hcnext
      rw [dnext]
      have := mid.settled_lt cur mid.cur_settled
      omega
    · rw [dother c hcnext]
      have := mid.settled_lt c (hback c hcnext hc)
      omega

end SmartPort

namespace SmartPort

theorem bfsRelax_cons (m : MapState) (cur dir : Point2d)
    (dirs : List Point2d) (dis : Point2d → Nat) (q : List Point2d) :
    bfsRelax m cur (dir :: dirs) (dis, q) =
      if m.valid ⟨cur.x + dir.x, cur.y + dir.y⟩ ∧
          dis ⟨cur.x + dir.x, cur.y + dir.y⟩ = INTMAX then
        bfsRelax m cur dirs
          (updateDis dis ⟨cur.x + dir.x, cur.y + dir.y⟩ (dis cur + 1),
            q ++ [⟨cur.x + dir.x, cur.y + dir.y⟩])
      else bfsRelax m cur dirs (dis, q) := rfl

theorem bfsRelax_spec (m : MapState) (positions : List Point2d)
    (cur : Point2d) (hsize : m.rows * m.cols < INTMAX) :
    ∀ (ds : List Point2d) (dis : Point2d → Nat) (q : List Point2d),
      (∀ d ∈ ds, d ∈ DIRS) →
      BfsMid m positions cur dis q →
      BfsMid m positions cur (bfsRelax m cur ds (dis, q)).1
        (bfsRelax m cur ds (dis, q)).2 ∧
      (∀ p, dis p ≠ INTMAX → (bfsRelax m cur ds (dis, q)).1 p = dis p) ∧
      (∀ dir ∈ ds, m.valid ⟨cur.x + dir.x, cur.y + dir.y⟩ →
        (bfsRelax m cur ds (dis, q)).1 ⟨cur.x + dir.x, cur.y + dir.y⟩ ≠
            INTMAX ∧
          (bfsRelax m cur ds (dis, q)).1 ⟨cur.x + dir.x, cur.y + dir.y⟩ ≤
            dis cur + 1) ∧
      unsettledCard m (bfsRelax m cur ds (dis, q)).1 +
          (bfsRelax m cur ds (dis, q)).2.length ≤
        unsettledCard m dis + q.length := by
  intro ds
  induction ds with
  | nil =>
    intro dis q _ mid
    exact ⟨mid, fun p _ => rfl, by simp, le_refl _⟩
  | cons dir dirs ih =>
    intro dis q hsub mid
    have hdir : dir ∈ DIRS := hsub dir (List.mem_cons_self dir dirs)
    have hsubrest : ∀ d ∈ dirs, d ∈ DIRS :=
      fun d hd => hsub d (List.mem_cons_of_mem dir hd)
    rw [bfsRelax_cons]
    by_cases hcond : m.valid ⟨cur.x + dir.x, cur.y + dir.y⟩ ∧
        dis ⟨cur.x + dir.x, cur.y + dir.y⟩ = INTMAX
    · rw [if_pos hcond]
      have hvne : dis cur + 1 ≠ INTMAX := by
        have h1 : dis cur < settledCard m dis :=
          mid.settled_lt cur mid.cur_settled
        have h2 : settledCard m dis ≤ m.rows * m.cols := settledCard_le m dis
        omega
      have hcurne : cur ≠ (⟨cur.x + dir.x, cur.y + dir.y⟩ : Point2d) := by
        intro h
        rw [← h] at hcond
        exact mid.cur_settled hcond.2
      have mid1 := BfsMid.settle hsize mid dir hdir hcond.1 hcond.2
      obtain ⟨ih1, ih2, ih3, ih4⟩ := ih
        (updateDis dis ⟨cur.x + dir.x, cur.y + dir.y⟩ (dis cur + 1))
        (q ++ [⟨cur.x + dir.x, cur.y + dir.y⟩]) hsubrest mid1
      have hstable : ∀ p, dis p ≠ INTMAX →
          (bfsRelax m cur dirs
            (updateDis dis ⟨cur.x + dir.x, cur.y + dir.y⟩ (dis cur + 1),
              q ++ [⟨cur.x + dir.x, cur.y + dir.y⟩])).1 p = dis p := by
        intro p hp
        have hpne : p ≠ (⟨cur.x + dir.x, cur.y + dir.y⟩ : Point2d) := by
          intro h
          rw [h] at hp
          exact hp hcond.2
        rw [ih2 p (settled_updateDis dis _ _ hvne p hp),
          updateDis_other dis _ _ p hpne]
      refine ⟨ih1, hstable, ?_, ?_⟩
      · intro dir' hdir' hv'
        rcases List.mem_cons.mp hdir' with rfl | hdir'rest
        · have hupd : updateDis dis ⟨cur.x + dir'.x, cur.y + dir'.y⟩
              (dis cur + 1) ⟨cur.x + dir'.x, cur.y + dir'.y⟩ =
              dis cur + 1 := updateDis_same dis _ _
          rw [ih2 _ (by rw [hupd]; exact hvne), hupd]
          exact ⟨hvne, le_refl _⟩
        · have := ih3 dir' hdir'rest hv'
          rwa [updateDis_other dis _ _ cur hcurne] at this
      · have hm := unsettledCard_updateDis m dis
          ⟨cur.x + dir.x, cur.y + dir.y⟩ (dis cur + 1)
          ((mem_gridPoints m _).mpr hcond.1.1) hcond.2 hvne
        have hlen : (q ++ [(⟨cur.x + dir.x, cur.y + dir.y⟩ : Point2d)]).length
            = q.length + 1 := by
          rw [List.length_append, List.length_singleton]
        omega
    · rw [if_neg hcond]
      obtain ⟨ih1, ih2, ih3, ih4⟩ := ih dis q hsubrest mid
      refine ⟨ih1, ih2, ?_, ih4⟩
      intro dir' hdir' hv'
      rcases List.mem_cons.mp hdir' with rfl | hdir'rest
      · have hsettled : dis ⟨cur.x + dir'.x, cur.y + dir'.y⟩ ≠ INTMAX := by
          intro h
          exact hcond ⟨hv', h⟩
        have hle : dis ⟨cur.x + dir'.x, cur.y + dir'.y⟩ ≤ dis cur + 1 := by
          have hcur := (mid.settled_correct cur mid.cur_settled).2.1
          have hr : Reach m positions (dis cur + 1)
              ⟨cur.x + dir'.x, cur.y + dir'.y⟩ :=
            Reach.step hcur ⟨dir', hdir, rfl⟩ hv'
          exact (mid.settled_correct _ hsettled).2.2 _ hr
        rw [ih2 _ hsettled]
        exact ⟨hsettled, hle⟩
      · exact ih3 dir' hdir'rest hv'

end SmartPort

namespace SmartPort

theorem BfsMid.of_inv {m : MapState} {positions : List Point2d}
    {dis : Point2d → Nat} {cur : Point2d} {rest : List Point2d}
    (inv : BfsInv m positions dis (cur :: rest)) :
    BfsMid m positions cur dis rest := by
  have hpair := List.pairwise_cons.mp inv.queue_sorted
  refine ⟨inv.seeds_settled, ?_, inv.settled_correct, ?_, hpair.2, hpair.1,
    ?_, ?_, ?_, inv.settled_lt⟩
  · exact fun c hc => inv.queue_settled c (List.mem_cons_of_mem cur hc)
  · exact inv.queue_settled cur (List.mem_cons_self cur rest)
  · exact fun c hc => inv.queue_close cur (List.mem_cons_self cur rest) c
      (List.mem_cons_of_mem cur hc)
  · intro c hc hcq hccur
    have hnot : c ∉ cur :: rest := by
      rw [List.mem_cons]
      rintro (h | h)
      exacts [hccur h, hcq h]
    exact inv.expanded_closed c hc hnot
  · intro c hc hcq hccur
    have hnot : c ∉ cur :: rest := by
      rw [List.mem_cons]
      rintro (h | h)
      exacts [hccur h, hcq h]
    exact inv.expanded_le_queued c hc hnot cur (List.mem_cons_self cur rest)

theorem BfsInv.of_mid {m : MapState} {positions : List Point2d}
    {cur : Point2d} {dis : Point2d → Nat} {q : List Point2d}
    (mid : BfsMid m positions cur dis q)
    (hexp : ∀ dir ∈ DIRS, m.valid ⟨cur.x + dir.x, cur.y + dir.y⟩ →
      dis ⟨cur.x + dir.x, cur.y + dir.y⟩ ≠ INTMAX ∧
      dis ⟨cur.x + dir.x, cur.y + dir.y⟩ ≤ dis cur + 1) :
    BfsInv m positions dis q := by
  refine ⟨mid.seeds_settled, mid.queue_settled, mid.settled_correct,
    mid.queue_sorted, ?_, ?_, ?_, mid.settled_lt⟩
  · intro a ha b hb
    have h1 := mid.queue_upper b hb
    have h2 := mid.queue_lower a ha
    omega
  · intro c hc hcq dir hdir hv
    by_cases hccur : c = cur
    · subst hccur
      exact hexp dir hdir hv
    · exact mid.old_expanded c hc hcq hccur dir hdir hv
  · intro c hc hcq b hb
    by_cases hccur : c = cur
    · subst hccur
      exact mid.queue_lower b hb
    · exact le_trans (mid.old_le_cur c hc hcq hccur) (mid.queue_lower b hb)

theorem bfsLoop_correct (m : MapState) (positions : List Point2d)
    (hsize : m.rows * m.cols < INTMAX) :
    ∀ (fuel : Nat) (dis : Point2d → Nat) (q : List Point2d),
      BfsInv m positions dis q →
      unsettledCard m dis + q.length ≤ fuel →
      BfsFinal m positions (bfsLoop m fuel dis q) := by
  intro fuel
  induction fuel with
  | zero =>
    intro dis q inv hm
    have hq : q = [] := List.length_eq_zero.mp (by omega)
    subst hq
    exact final_of_inv_empty inv
  | succ fuel ihf =>
    intro dis q inv hm
    cases q with
    | nil => exact final_of_inv_empty inv
    | cons cur rest =>
      show BfsFinal m positions
        (bfsLoop m fuel (bfsRelax m cur DIRS (dis, rest)).1
          (bfsRelax m cur DIRS (dis, rest)).2)
      have mid := BfsMid.of_inv inv
      obtain ⟨mid', hstable, hexp, hmeas⟩ :=
        bfsRelax_spec m positions cur hsize DIRS dis rest
          (fun d hd => hd) mid
      have hcurstable : (bfsRelax m cur DIRS (dis, rest)).1 cur = dis cur :=
        hstable cur mid.cur_settled
      have inv' : BfsInv m positions (bfsRelax m cur DIRS (dis, rest)).1
          (bfsRelax m cur DIRS (dis, rest)).2 := by
        refine BfsInv.of_mid mid' ?_
        intro dir hdir hv
        rw [hcurstable]
        exact hexp dir hdir hv
      refine ihf _ _ inv' ?_
      have hlen : (cur :: rest).length = rest.length + 1 :=
        List.length_cons cur rest
      omega

end SmartPort

namespace SmartPort

/-- Invariant of the seeding loop: all settled cells are valid seeds at
distance 0 and sit in the queue. -/
structure SeedInv (m : MapState) (positionsAll : List Point2d)
    (dis : Point2d → Nat) (q : List Point2d) : Prop where
  settled_spec : ∀ p, dis p ≠ INTMAX →
    dis p = 0 ∧ m.valid p ∧ p ∈ positionsAll
  queue_settled : ∀ c ∈ q, dis c ≠ INTMAX
  settled_in_queue : ∀ p, dis p ≠ INTMAX → p ∈ q

theorem bfsSeed_cons (m : MapState) (pos : Point2d) (rest : List Point2d)
    (dis : Point2d → Nat) (q : List Point2d) :
    bfsSeed m (pos :: rest) (dis, q) =
      if m.valid pos then
        bfsSeed m rest (updateDis dis pos 0, q ++ [pos])
      else bfsSeed m rest (dis, q) := rfl

theorem zero_ne_INTMAX : (0 : Nat) ≠ INTMAX := by decide

theorem bfsSeed_spec (m : MapState) (positionsAll : List Point2d) :
    ∀ (ps : List Point2d) (dis : Point2d → Nat) (q : List Point2d),
      (∀ p ∈ ps, p ∈ positionsAll) →
      SeedInv m positionsAll dis q →
      SeedInv m positionsAll (bfsSeed m ps (dis, q)).1
        (bfsSeed m ps (dis, q)).2 ∧
      (∀ p ∈ ps, m.valid p → (bfsSeed m ps (dis, q)).1 p ≠ INTMAX) ∧
      (∀ p, dis p ≠ INTMAX → (bfsSeed m ps (dis, q)).1 p ≠ INTMAX) ∧
      (bfsSeed m ps (dis, q)).2.length ≤ q.length + ps.length := by
  intro ps
  induction ps with
  | nil =>
    intro dis q _ si
    exact ⟨si, by simp, fun p hp => hp, le_refl _⟩
  | cons pos rest ih =>
    intro dis q hsub si
    have hsubrest : ∀ p ∈ rest, p ∈ positionsAll :=
      fun p hp => hsub p (List.mem_cons_of_mem pos hp)
    rw [bfsSeed_cons]
    by_cases hvpos : m.valid pos
    · rw [if_pos hvpos]
      have si1 : SeedInv m positionsAll (updateDis dis pos 0)
          (q ++ [pos]) := by
        refine ⟨?_, ?_, ?_⟩
        · intro p hp
          by_cases hppos : p = pos
          · subst hppos
            rw [updateDis_same]
            exact ⟨rfl, hvpos, hsub _ (List.mem_cons_self _ _)⟩
          · rw [updateDis_other dis pos 0 p hppos] at hp ⊢
            exact si.settled_spec p hp
        · intro c hc
          rcases List.mem_append.mp hc with hcq | hcp
          · by_cases hcpos : c = pos
            · subst hcpos
              rw [updateDis_same]
              exact zero_ne_INTMAX
            · rw [updateDis_other dis pos 0 c hcpos]
              exact si.queue_settled c hcq
          · obtain rfl : c = pos := by simpa using hcp
            rw [updateDis_same]
            exact zero_ne_INTMAX
        · intro p hp
          by_cases hppos : p = pos
          · subst hppos
            exact List.mem_append.mpr (Or.inr (by simp))
          · rw [updateDis_other dis pos 0 p hppos] at hp
            exact List.mem_append.mpr (Or.inl (si.settled_in_queue p hp))
      obtain ⟨ih1, ih2, ih3, ih4⟩ := ih (updateDis dis pos 0) (q ++ [pos])
        hsubrest si1
      refine ⟨ih1, ?_, ?_, ?_⟩
      · intro p hp hvp
        rcases List.mem_cons.mp hp with rfl | hprest
        · exact ih3 p (by rw [updateDis_same]; exact zero_ne_INTMAX)
        · exact ih2 p hprest hvp
      · intro p hp
        apply ih3 p
        by_cases hppos : p = pos
        · subst hppos
          rw [updateDis_same]
          exact zero_ne_INTMAX
        · rw [updateDis_other dis pos 0 p hppos]
          exact hp
      · have hlen : (q ++ [pos]).length = q.length + 1 := by simp
        rw [List.length_cons]
        omega
    · rw [if_neg hvpos]
      obtain ⟨ih1, ih2, ih3, ih4⟩ := ih dis q hsubrest si
      refine ⟨ih1, ?_, ih3, ?_⟩
      · intro p hp hvp
        rcases List.mem_cons.mp hp with rfl | hprest
        · exact absurd hvp hvpos
        · exact ih2 p hprest hvp
      · rw [List.length_cons]
        omega

theorem pairwise_le_of_all_zero {dis : Point2d → Nat} :
    ∀ (q : List Point2d), (∀ c ∈ q, dis c = 0) →
      q.Pairwise (fun a b => dis a ≤ dis b) := by
  intro q
  induction q with
  | nil => intro _; exact List.Pairwise.nil
  | cons a l ih =>
    intro h
    refine List.Pairwise.cons ?_
      (ih fun c hc => h c (List.mem_cons_of_mem a hc))
    intro b hb
    rw [h a (List.mem_cons_self a l), h b (List.mem_cons_of_mem a hb)]

theorem BfsInv.of_seed (m : MapState) (positions : List Point2d)
    (dis : Point2d → Nat) (q : List Point2d)
    (si : SeedInv m positions dis q)
    (hseeds : ∀ p ∈ positions, m.valid p → dis p ≠ INTMAX) :
    BfsInv m positions dis q := by
  have hzero : ∀ c ∈ q, dis c = 0 :=
    fun c hc => (si.settled_spec c (si.queue_settled c hc)).1
  refine ⟨hseeds, si.queue_settled, ?_, ?_, ?_, ?_, ?_, ?_⟩
  · intro c hc
    obtain ⟨h0, hv, hmem⟩ := si.settled_spec c hc
    rw [h0]
    exact ⟨hv, Reach.seed c hmem hv, fun k _ => Nat.zero_le k⟩
  · exact pairwise_le_of_all_zero q hzero
  · intro a ha b hb
    rw [hzero a ha, hzero b hb]
    omega
  · intro c hc hcq
    exact absurd (si.settled_in_queue c hc) hcq
  · intro c hc hcq
    exact absurd (si.settled_in_queue c hc) hcq
  · intro c hc
    obtain ⟨h0, hv, -⟩ := si.settled_spec c hc
    rw [h0]
    rw [settledCard, Finset.card_pos]
    exact ⟨c, Finset.mem_filter.mpr ⟨(mem_gridPoints m c).mpr hv.1, hc⟩⟩

/-- Full correctness of `Map::computeDistancesToBerthViaBFS`: on a map
whose cell count is below `INT_MAX`, the computed field holds the shortest
seed distances, with `INT_MAX` exactly on the unreachable cells. -/
theorem computeDistances_correct (m : MapState) (positions : List Point2d)
    (hsize : m.rows * m.cols < INTMAX) :
    BfsFinal m positions (computeDistancesToBerthViaBFS m positions) := by
  unfold computeDistancesToBerthViaBFS
  have si0 : SeedInv m positions (fun _ => INTMAX) [] := by
    refine ⟨?_, ?_, ?_⟩
    · intro p hp
      exact absurd rfl hp
    · intro c hc
      exact absurd hc (List.not_mem_nil c)
    · intro p hp
      exact absurd rfl hp
  obtain ⟨si, hps, -, hlen⟩ := bfsSeed_spec m positions positions
    (fun _ => INTMAX) [] (fun p hp => hp) si0
  apply bfsLoop_correct m positions hsize
  · exact BfsInv.of_seed m positions _ _ si hps
  · have hcap : unsettledCard m
        (bfsSeed m positions (fun _ => INTMAX, [])).1 ≤ m.rows * m.cols :=
      le_trans (Finset.card_filter_le _ _) (card_gridPoints_le m)
    simp only [List.length_nil] at hlen
    omega

end SmartPort

namespace SmartPort

/-- The 16 seed cells pushed at init for a berth whose top-left cell is
`(0,0)`: `berth.pos + (i, j)` for `i, j ∈ 0..3`, `i` outer
(gameManager.cpp lines 90–99). -/
def berthSeeds : List Point2d :=
  [⟨0, 0⟩, ⟨0, 1⟩, ⟨0, 2⟩, ⟨0, 3⟩,
   ⟨1, 0⟩, ⟨1, 1⟩, ⟨1, 2⟩, ⟨1, 3⟩,
   ⟨2, 0⟩, ⟨2, 1⟩, ⟨2, 2⟩, ⟨2, 3⟩,
   ⟨3, 0⟩, ⟨3, 1⟩, ⟨3, 2⟩, ⟨3, 3⟩]

/-- On the all-Space 200×200 map seeded with the 4×4 berth footprint at
`(0,0)`, the BFS distance of cell `(3,4)` is 1 (its neighbor `(3,3)` is a
seed). -/
theorem bfs200_at_3_4 :
    computeDistancesToBerthViaBFS (allSpaceMap 200) berthSeeds ⟨3, 4⟩ = 1 := by
  have hsize : (allSpaceMap 200).rows * (allSpaceMap 200).cols < INTMAX := by
    decide
  have hf := computeDistances_correct (allSpaceMap 200) berthSeeds hsize
    ⟨3, 4⟩
  have hreach1 : Reach (allSpaceMap 200) berthSeeds 1 ⟨3, 4⟩ := by
    refine Reach.step (Reach.seed ⟨3, 3⟩ (by decide) (by decide))
      ⟨⟨0, 1⟩, by decide, by decide⟩ (by decide)
  have hnot0 : ¬ Reach (allSpaceMap 200) berthSeeds 0 ⟨3, 4⟩ := by
    intro h
    cases h with
    | seed p hp hv => exact absurd hp (by decide)
  by_cases hI : computeDistancesToBerthViaBFS (allSpaceMap 200) berthSeeds
      ⟨3, 4⟩ = INTMAX
  · exact absurd hreach1 ((hf.2 hI) 1)
  · have h1 := (hf.1 hI).2 1 hreach1
    have h2 := (hf.1 hI).1
    rcases Nat.lt_or_ge (computeDistancesToBerthViaBFS (allSpaceMap 200)
        berthSeeds ⟨3, 4⟩) 1 with hlt | hge
    · have h0 : computeDistancesToBerthViaBFS (allSpaceMap 200) berthSeeds
          ⟨3, 4⟩ = 0 := by omega
      rw [h0] at h2
      exact absurd h2 hnot0
    · omega

/-- Claim C2 (amended): for every seed set (and every berth id, the id
only selecting the slot the matrix is stored into),
`computeDistancesToBerthViaBFS` assigns to each cell the length of a
shortest 4-connected path through in-bounds passable cells from the
nearest in-bounds passable seed, and assigns the sentinel `INT_MAX` to
every cell unreachable from all seeds; in particular on the all-Space
200×200 map with a single berth at `(0,0)`, seeded as at init with the 16
cells of the 4×4 berth footprint, `berthDistanceMap[0][3][4]` equals 1
(not 7). -/
theorem claim_C2_bfs (m : MapState) (positions : List Point2d)
    (hsize : m.rows * m.cols < INTMAX) (c : Point2d) :
    (computeDistancesToBerthViaBFS m positions c ≠ INTMAX →
       Reach m positions (computeDistancesToBerthViaBFS m positions c) c ∧
       (∀ k, Reach m positions k c →
          computeDistancesToBerthViaBFS m positions c ≤ k)) ∧
    (computeDistancesToBerthViaBFS m positions c = INTMAX →
       ∀ n, ¬ Reach m positions n c) ∧
    computeDistancesToBerthViaBFS (allSpaceMap 200) berthSeeds ⟨3, 4⟩ = 1 := by
  have hf := computeDistances_correct m positions hsize c
  exact ⟨hf.1, hf.2, bfs200_at_3_4⟩

/-- Witness for C2: the theorem applied to the all-Space 200×200 map. -/
theorem claim_C2_bfs_witness :
    (allSpaceMap 200).rows * (allSpaceMap 200).cols < INTMAX ∧
    computeDistancesToBerthViaBFS (allSpaceMap 200) berthSeeds ⟨3, 4⟩ = 1 :=
  ⟨by decide,
    (claim_C2_bfs (allSpaceMap 200) berthSeeds (by decide) ⟨0, 0⟩).2.2⟩

/-- Claim C2 counterexample: the claimed concrete value
`berthDistanceMap[0][3][4] = 7` is wrong — when the BFS is seeded with all
16 footprint cells, the cell `(3,4)` is adjacent to the seed `(3,3)` and
its distance is 1, not 7 (7 is the distance from the single cell
`(0,0)`). -/
theorem claim_C2_counterexample :
    computeDistancesToBerthViaBFS (allSpaceMap 200) berthSeeds ⟨3, 4⟩ = 1 ∧
    computeDistancesToBerthViaBFS (allSpaceMap 200) berthSeeds ⟨3, 4⟩ ≠ 7 := by
  refine ⟨bfs200_at_3_4, ?_⟩
  rw [bfs200_at_3_4]
  decide

end SmartPort

namespace SmartPort

/-! ### Claim C4: `PriorityQueueWithRemove` (priorityQueue.h lines 32–176)

The heap vector `vec` is modelled by its underlying buffer together with
the live length `len` (`vec.size()`).  Keeping the buffer matters:
`remove` can execute `heap_up(i)` with `i == vec.size()` right after its
`pop_back` (this happens whenever the removed value sat in the last heap
slot), and the `vec[i]` read inside `heap_up` then yields the
just-popped entry, which is still physically present in the buffer. -/

/-- `HeapEntry` (priorityQueue.h lines 98–117). -/
structure HeapEntry (V P : Type) where
  value : V
  priority : P
  deriving DecidableEq, Repr

variable {V P : Type} [DecidableEq V] [LinearOrder P] [Inhabited V]
  [Inhabited P]

/-- State of a `PriorityQueueWithRemove`. -/
structure PQR (V P : Type) where
  idx : List (V × Nat)
  buffer : List (HeapEntry V P)
  len : Nat
  deriving Repr

/-- The constructor `PriorityQueueWithRemove() : vec(1)`: one
default-constructed entry, empty index table. -/
def PQR.empty : PQR V P :=
  { idx := [], buffer := [⟨default, default⟩], len := 1 }

/-- Read `vec[i]` (unchecked `operator[]`; an out-of-range read within the
buffer returns the stale entry, beyond it the default entry). -/
def PQR.get (s : PQR V P) (i : Nat) : HeapEntry V P :=
  s.buffer.getD i ⟨default, default⟩

/-- Write `vec[i] = e`. -/
def PQR.writeAt (s : PQR V P) (i : Nat) (e : HeapEntry V P) : PQR V P :=
  { s with buffer := s.buffer.set i e }

/-- `HeapEntry::operator<` (priorityQueue.h line 103): compare
priorities. -/
def heLt (a b : HeapEntry V P) : Prop := a.priority < b.priority

/-- `HeapEntry::operator<=` = `operator< || operator==`
(priorityQueue.h lines 104, 113–116). -/
def heLe (a b : HeapEntry V P) : Prop :=
  a.priority < b.priority ∨ a.priority = b.priority

instance (a b : HeapEntry V P) : Decidable (heLt a b) := by
  unfold heLt; infer_instance

instance (a b : HeapEntry V P) : Decidable (heLe a b) := by
  unfold heLe; infer_instance

/-- `idx[v]` as an rvalue inside `std::swap`: `operator[]`
default-inserts 0 for an absent key. -/
def pqIdxRead (l : List (V × Nat)) (v : V) : Nat × List (V × Nat) :=
  match alistFind l v with
  | some n => (n, l)
  | none => (0, l ++ [(v, 0)])

/-- The private `swap(vec[i], vec[j])` (priorityQueue.h lines 119–123):
`std::swap(idx[a.value], idx[b.value])`, then swap the two vector
slots. -/
def PQR.swapAt (s : PQR V P) (i j : Nat) : PQR V P :=
  let a := s.get i
  let b := s.get j
  let r1 := pqIdxRead s.idx a.value
  let r2 := pqIdxRead r1.2 b.value
  { s with
      idx := alistSet (alistSet r2.2 a.value r2.1) b.value r1.1
      buffer := (s.buffer.set i b).set j a }

/-- `heap_up` (priorityQueue.h lines 125–132), with fuel: the index at
least halves per iteration, so fuel `i` always suffices. -/
def heapUpAux : Nat → PQR V P → Nat → PQR V P
  | 0, s, _ => s
  | Nat.succ fuel, s, i =>
    if 1 ≤ i / 2 ∧ heLt (s.get i) (s.get (i / 2)) then
      heapUpAux fuel (s.swapAt i (i / 2)) (i / 2)
    else s

def heapUp (s : PQR V P) (i : Nat) : PQR V P := heapUpAux i s i

/-- `heap_down` (priorityQueue.h lines 134–168), with fuel: the index at
least doubles per iteration while staying below `len`, so fuel `len`
always suffices. -/
def heapDownAux : Nat → PQR V P → Nat → PQR V P
  | 0, s, _ => s
  | Nat.succ fuel, s, i =>
    if 2 * i ≥ s.len then s
    else
      let child := if 2 * i = s.len - 1 ∨
          heLe (s.get (2 * i)) (s.get (2 * i + 1)) then 2 * i
        else 2 * i + 1
      if heLe (s.get i) (s.get child) then s
      else heapDownAux fuel (s.swapAt i child) child

def heapDown (s : PQR V P) (i : Nat) : PQR V P := heapDownAux s.len s i

/-- Swap two buffer slots without touching the index table (used by
`std::pop_heap`, which only sees the vector). -/
def PQR.bufSwapAt (s : PQR V P) (i j : Nat) : PQR V P :=
  let a := s.get i
  let b := s.get j
  { s with buffer := (s.buffer.set i b).set j a }

/-- The sift-down of `std::pop_heap` on the range `[0, last)` with
`operator<` (a max-heap sift, 0-based children `2i+1`, `2i+2`). -/
def popSiftDown : Nat → PQR V P → Nat → Nat → PQR V P
  | 0, s, _, _ => s
  | Nat.succ fuel, s, i, last =>
    let l := 2 * i + 1
    let r := 2 * i + 2
    if l ≥ last then s
    else
      let child := if r ≥ last ∨ heLt (s.get r) (s.get l) then l else r
      if heLt (s.get i) (s.get child) then
        popSiftDown fuel (s.bufSwapAt i child) child last
      else s

/-- `PriorityQueueWithRemove::pop` (priorityQueue.h lines 43–47):
`std::pop_heap(vec.begin(), vec.end())` — which permutes the whole live
vector, sentinel slot 0 included, and never touches `idx` — followed by
`vec.pop_back()`. -/
def PQR.pop (s : PQR V P) : PQR V P :=
  if s.len ≤ 1 then { s with len := s.len - 1 }
  else
    let s1 := s.bufSwapAt 0 (s.len - 1)
    let s2 := popSiftDown s.len s1 0 (s.len - 1)
    { s2 with len := s2.len - 1 }

/-- `PriorityQueueWithRemove::remove` (priorityQueue.h lines 49–81). -/
def PQR.remove (s : PQR V P) (v : V) : PQR V P :=
  match alistFind s.idx v with
  | none => s
  | some i =>
    let removed_priority := (s.get i).priority
    let last_idx := s.len - 1
    let last_elem := s.get last_idx
    let s1 := s.writeAt i last_elem
    let s2 := { s1 with idx := alistSet s1.idx last_elem.value i }
    let s3 := { s2 with idx := alistErase s2.idx v }
    let s4 := { s3 with len := s3.len - 1 }
    if removed_priority < last_elem.priority then heapDown s4 i
    else heapUp s4 i

/-- `PriorityQueueWithRemove::insert` (priorityQueue.h lines 83–90). -/
def PQR.insert (s : PQR V P) (v : V) (p : P) : PQR V P :=
  let s0 := s.remove v
  let s1 := { s0 with
      buffer := s0.buffer.take s0.len ++ [(⟨v, p⟩ : HeapEntry V P)]
      len := s0.len + 1 }
  let s2 := { s1 with idx := alistSet s1.idx v (s1.len - 1) }
  heapUp s2 (s2.len - 1)

/-- A public mutating operation of `PriorityQueueWithRemove`. -/
inductive PQOp (V P : Type) where
  | insert (v : V) (p : P)
  | remove (v : V)
  | pop
  deriving DecidableEq, Repr

def applyOp (s : PQR V P) : PQOp V P → PQR V P
  | PQOp.insert v p => s.insert v p
  | PQOp.remove v => s.remove v
  | PQOp.pop => s.pop

/-- Run a sequence of public operations from the freshly constructed
queue. -/
def runOps (ops : List (PQOp V P)) : PQR V P :=
  ops.foldl applyOp PQR.empty

/-- Claim C4 counterexample: after `insert(5, 3)` followed by `pop()`,
the heap vector has shrunk back to the sentinel alone but the index table
still holds the entry for 5 (`pop` never erases from `idx`), so
`|idx| + 1 = 2 ≠ 1 = |vec|`. -/
theorem claim_C4_counterexample :
    (runOps [PQOp.insert 5 3, PQOp.pop] : PQR Nat Nat).idx.length + 1 ≠
      (runOps [PQOp.insert 5 3, PQOp.pop] : PQR Nat Nat).len := by
  decide

end SmartPort

namespace SmartPort

section PQProofs

variable {K W : Type} [DecidableEq K]

theorem mem_keys_of_alistFind_eq_some {l : List (K × W)} {k : K} {v : W}
    (h : alistFind l k = some v) : k ∈ l.map Prod.fst := by
  induction l with
  | nil => simp [alistFind] at h
  | cons kv rest ih =>
    obtain ⟨k0, v0⟩ := kv
    by_cases hk : k0 = k
    · subst hk
      simp
    · simp only [alistFind, if_neg hk] at h
      simp only [List.map_cons, List.mem_cons]
      exact Or.inr (ih h)

theorem alistFind_eq_none_iff (l : List (K × W)) (k : K) :
    alistFind l k = none ↔ k ∉ l.map Prod.fst := by
  constructor
  · exact not_mem_keys_of_alistFind_eq_none l k
  · exact alistFind_eq_none_of_not_mem l k

theorem keys_alistSet_of_mem {l : List (K × W)} {k : K} (v : W)
    (h : k ∈ l.map Prod.fst) :
    (alistSet l k v).map Prod.fst = l.map Prod.fst := by
  induction l with
  | nil => simp at h
  | cons kv rest ih =>
    obtain ⟨k0, v0⟩ := kv
    by_cases hk : k0 = k
    · simp [alistSet, hk]
    · simp only [List.map_cons, List.mem_cons] at h
      rcases h with h | h
      · exact absurd h.symm hk
      · simp [alistSet, hk, ih h]

theorem keys_alistSet_of_not_mem {l : List (K × W)} {k : K} (v : W)
    (h : k ∉ l.map Prod.fst) :
    (alistSet l k v).map Prod.fst = l.map Prod.fst ++ [k] := by
  induction l with
  | nil => simp [alistSet]
  | cons kv rest ih =>
    obtain ⟨k0, v0⟩ := kv
    simp only [List.map_cons, List.mem_cons] at h
    push_neg at h
    simp only [alistSet, if_neg (fun hh : k0 = k => h.1 hh.symm),
      List.map_cons, List.cons_append]
    rw [ih h.2]

theorem keys_alistErase_sublist (l : List (K × W)) (k : K) :
    ((alistErase l k).map Prod.fst).Sublist (l.map Prod.fst) := by
  induction l with
  | nil => simp
  | cons kv rest ih =>
    obtain ⟨k0, v0⟩ := kv
    by_cases hk : k0 = k
    · simp only [alistErase, if_pos hk, List.map_cons]
      exact List.sublist_cons_of_sublist k0 (List.Sublist.refl _)
    · simp only [alistErase, if_neg hk, List.map_cons]
      exact List.Sublist.cons₂ k0 ih

end PQProofs

variable {V P : Type} [DecidableEq V] [LinearOrder P] [Inhabited V]
  [Inhabited P]

/-- The table part of the queue's well-formedness: `idx` is exactly the
value→slot map of the live heap slots `1 .. len-1`. -/
structure PQTC (s : PQR V P) : Prop where
  len_pos : 1 ≤ s.len
  len_le : s.len ≤ s.buffer.length
  keys_nodup : (s.idx.map Prod.fst).Nodup
  find_sound : ∀ v i, alistFind s.idx v = some i →
    1 ≤ i ∧ i < s.len ∧ (s.get i).value = v
  find_complete : ∀ i, 1 ≤ i → i < s.len →
    alistFind s.idx ((s.get i).value) = some i

/-- The 1-based min-heap property on the live slots. -/
def HeapProp (s : PQR V P) : Prop :=
  ∀ j, 2 ≤ j → j < s.len → (s.get (j / 2)).priority ≤ (s.get j).priority

/-- Full well-formedness of a queue state. -/
def PQWf (s : PQR V P) : Prop := PQTC s ∧ HeapProp s

theorem pqwf_empty : PQWf (PQR.empty : PQR V P) := by
  constructor
  · refine ⟨le_refl 1, le_refl 1, by simp [PQR.empty], ?_, ?_⟩
    · intro v i h
      simp [PQR.empty, alistFind] at h
    · intro i h1 h2
      simp [PQR.empty] at h1 h2
      omega
  · intro j h1 h2
    simp [PQR.empty] at h2
    omega

end SmartPort

namespace SmartPort

variable {V P : Type} [DecidableEq V] [LinearOrder P] [Inhabited V]
  [Inhabited P]

omit [DecidableEq V] [LinearOrder P] in
theorem PQR.get_set_same (s : PQR V P) (i : Nat) (e : HeapEntry V P)
    (h : i < s.buffer.length) :
    (PQR.get { s with buffer := s.buffer.set i e } i) = e := by
  unfold PQR.get
  rw [List.getD_eq_getElem?_getD, List.getElem?_set_self (by simpa using h)]
  rfl

omit [DecidableEq V] [LinearOrder P] in
theorem PQR.get_set_other (s : PQR V P) (i j : Nat) (e : HeapEntry V P)
    (h : i ≠ j) :
    (PQR.get { s with buffer := s.buffer.set i e } j) = s.get j := by
  unfold PQR.get
  rw [List.getD_eq_getElem?_getD, List.getElem?_set_ne h,
    ← List.getD_eq_getElem?_getD]

theorem swapAt_spec (s : PQR V P) (i j : Nat) (tc : PQTC s)
    (hi1 : 1 ≤ i) (hi2 : i < s.len) (hj1 : 1 ≤ j) (hj2 : j < s.len)
    (hij : i ≠ j) :
    PQTC (s.swapAt i j) ∧
    (s.swapAt i j).len = s.len ∧
    (s.swapAt i j).buffer.length = s.buffer.length ∧
    (s.swapAt i j).get i = s.get j ∧
    (s.swapAt i j).get j = s.get i ∧
    (∀ k, k ≠ i → k ≠ j → (s.swapAt i j).get k = s.get k) ∧
    (∀ u, alistFind s.idx u = none →
      alistFind (s.swapAt i j).idx u = none) := by
  have hilen : i < s.buffer.length := lt_of_lt_of_le hi2 tc.len_le
  have hjlen : j < s.buffer.length := lt_of_lt_of_le hj2 tc.len_le
  have ha : alistFind s.idx ((s.get i).value) = some i :=
    tc.find_complete i hi1 hi2
  have hb : alistFind s.idx ((s.get j).value) = some j :=
    tc.find_complete j hj1 hj2
  have hab : (s.get i).value ≠ (s.get j).value := by
    intro h
    rw [h, hb] at ha
    exact hij (Option.some.inj ha).symm
  have hswap : s.swapAt i j =
      { s with
          idx := alistSet (alistSet s.idx ((s.get i).value) j)
            ((s.get j).value) i
          buffer := (s.buffer.set i (s.get j)).set j (s.get i) } := by
    unfold PQR.swapAt pqIdxRead
    simp only [ha, hb]
  have hgets : ∀ k, (s.swapAt i j).get k =
      PQR.get { s with buffer :=
        (s.buffer.set i (s.get j)).set j (s.get i) } k := by
    intro k
    rw [hswap]
    rfl
  have hgi : (s.swapAt i j).get i = s.get j := by
    rw [hgets i]
    have h1 : PQR.get { s with buffer :=
        (s.buffer.set i (s.get j)).set j (s.get i) } i =
        PQR.get { s with buffer := s.buffer.set i (s.get j) } i := by
      exact PQR.get_set_other
        { s with buffer := s.buffer.set i (s.get j) } j i (s.get i)
        (fun h => hij h.symm)
    rw [h1]
    exact PQR.get_set_same s i (s.get j) hilen
  have hgj : (s.swapAt i j).get j = s.get i := by
    rw [hgets j]
    exact PQR.get_set_same { s with buffer := s.buffer.set i (s.get j) } j
      (s.get i) (by simpa using hjlen)
  have hgk : ∀ k, k ≠ i → k ≠ j → (s.swapAt i j).get k = s.get k := by
    intro k hki hkj
    rw [hgets k]
    have h1 := PQR.get_set_other
      { s with buffer := s.buffer.set i (s.get j) } j k (s.get i)
      (fun h => hkj h.symm)
    rw [h1]
    exact PQR.get_set_other s i k (s.get j) (fun h => hki h.symm)
  have hfindb : alistFind (s.swapAt i j).idx ((s.get j).value) = some i := by
    rw [hswap]
    exact alistFind_alistSet_self _ _ _
  have hfinda : alistFind (s.swapAt i j).idx ((s.get i).value) = some j := by
    rw [hswap]
    have h1 := alistFind_alistSet_other
      (alistSet s.idx ((s.get i).value) j) ((s.get j).value)
      ((s.get i).value) i (fun h => hab h.symm)
    simp only [] at h1 ⊢
    rw [h1]
    exact alistFind_alistSet_self _ _ _
  have hfindo : ∀ u, u ≠ (s.get i).value → u ≠ (s.get j).value →
      alistFind (s.swapAt i j).idx u = alistFind s.idx u := by
    intro u hua hub
    rw [hswap]
    have h1 := alistFind_alistSet_other
      (alistSet s.idx ((s.get i).value) j) ((s.get j).value) u i
      (fun h => hub h.symm)
    simp only [] at h1 ⊢
    rw [h1]
    exact alistFind_alistSet_other s.idx ((s.get i).value) u j
      (fun h => hua h.symm)
  have hkeys : ((s.swapAt i j).idx.map Prod.fst) = s.idx.map Prod.fst := by
    rw [hswap]
    have h1 : (alistSet s.idx ((s.get i).value) j).map Prod.fst =
        s.idx.map Prod.fst :=
      keys_alistSet_of_mem j (mem_keys_of_alistFind_eq_some ha)
    have h2 : (alistSet (alistSet s.idx ((s.get i).value) j)
        ((s.get j).value) i).map Prod.fst =
        (alistSet s.idx ((s.get i).value) j).map Prod.fst :=
      keys_alistSet_of_mem i (by
        rw [h1]
        exact mem_keys_of_alistFind_eq_some hb)
    rw [h2, h1]
  have hlen : (s.swapAt i j).len = s.len := by rw [hswap]
  have hbuflen : (s.swapAt i j).buffer.length = s.buffer.length := by
    rw [hswap]
    simp
  refine ⟨?_, hlen, hbuflen, hgi, hgj, hgk, ?_⟩
  · refine ⟨by rw [hlen]; exact tc.len_pos,
      by rw [hlen, hbuflen]; exact tc.len_le,
      by rw [hkeys]; exact tc.keys_nodup, ?_, ?_⟩
    · intro u k hfind
      by_cases hub : u = (s.get j).value
      · subst hub
        rw [hfindb] at hfind
        obtain rfl : i = k := Option.some.inj hfind
        rw [hlen, hgi]
        exact ⟨hi1, hi2, rfl⟩
      · by_cases hua : u = (s.get i).value
        · subst hua
          rw [hfinda] at hfind
          obtain rfl : j = k := Option.some.inj hfind
          rw [hlen, hgj]
          exact ⟨hj1, hj2, rfl⟩
        · rw [hfindo u hua hub] at hfind
          obtain ⟨h1, h2, h3⟩ := tc.find_sound u k hfind
          have hki : k ≠ i := by
            intro h
            rw [h] at h3
            exact hua h3.symm
          have hkj : k ≠ j := by
            intro h
            rw [h] at h3
            exact hub h3.symm
          rw [hlen, hgk k hki hkj]
          exact ⟨h1, h2, h3⟩
    · intro k h1 h2
      rw [hlen] at h2
      by_cases hki : k = i
      · subst hki
        rw [hgi]
        exact hfindb
      · by_cases hkj : k = j
        · subst hkj
          rw [hgj]
          exact hfinda
        · rw [hgk k hki hkj]
          have hu := tc.find_complete k h1 h2
          have hua : (s.get k).value ≠ (s.get i).value := by
            intro h
            rw [h, ha] at hu
            exact hki (Option.some.inj hu).symm
          have hub : (s.get k).value ≠ (s.get j).value := by
            intro h
            rw [h, hb] at hu
            exact hkj (Option.some.inj hu).symm
          rw [hfindo _ hua hub]
          exact hu
  · intro u hnone
    have hua : u ≠ (s.get i).value := by
      intro h
      rw [h, ha] at hnone
      exact Option.noConfusion hnone
    have hub : u ≠ (s.get j).value := by
      intro h
      rw [h, hb] at hnone
      exact Option.noConfusion hnone
    rw [hfindo u hua hub]
    exact hnone

end SmartPort

namespace SmartPort

variable {V P : Type} [DecidableEq V] [LinearOrder P] [Inhabited V]
  [Inhabited P]

theorem heLe_iff (a b : HeapEntry V P) :
    heLe a b ↔ a.priority ≤ b.priority := by
  unfold heLe
  exact le_iff_lt_or_eq.symm

theorem heLt_iff (a b : HeapEntry V P) :
    heLt a b ↔ a.priority < b.priority := Iff.rfl

/-- Almost-a-heap while sifting up: every heap edge holds except possibly
the one into slot `i`, and the former parent of `i` already dominates the
children of `i`. -/
def AHUp (s : PQR V P) (i : Nat) : Prop :=
  (∀ j, 2 ≤ j → j < s.len → j ≠ i →
    (s.get (j / 2)).priority ≤ (s.get j).priority) ∧
  (∀ c, 2 ≤ i → c / 2 = i → 2 ≤ c → c < s.len →
    (s.get (i / 2)).priority ≤ (s.get c).priority)

/-- Almost-a-heap while sifting down: every heap edge holds except
possibly the ones out of slot `i`, and the parent of `i` dominates the
children of `i`. -/
def AHDown (s : PQR V P) (i : Nat) : Prop :=
  (∀ j, 2 ≤ j → j < s.len → j / 2 ≠ i →
    (s.get (j / 2)).priority ≤ (s.get j).priority) ∧
  (∀ c, 2 ≤ i → c / 2 = i → c < s.len →
    (s.get (i / 2)).priority ≤ (s.get c).priority)

theorem heapUpAux_succ (fuel : Nat) (s : PQR V P) (i : Nat) :
    heapUpAux (fuel + 1) s i =
      if 1 ≤ i / 2 ∧ heLt (s.get i) (s.get (i / 2)) then
        heapUpAux fuel (s.swapAt i (i / 2)) (i / 2)
      else s := rfl

theorem heapUpAux_wf (fuel : Nat) :
    ∀ (s : PQR V P) (i : Nat),
    PQTC s → 1 ≤ i → i < s.len → AHUp s i → i ≤ fuel →
    PQWf (heapUpAux fuel s i) ∧
    (heapUpAux fuel s i).len = s.len ∧
    (∀ u, alistFind s.idx u = none →
      alistFind (heapUpAux fuel s i).idx u = none) := by
  induction fuel with
  | zero =>
    intro s i tc hi1 hi2 hup hfuel
    omega
  | succ fuel ih =>
    intro s i tc hi1 hi2 hup hfuel
    rw [heapUpAux_succ]
    by_cases hguard : 1 ≤ i / 2 ∧ heLt (s.get i) (s.get (i / 2))
    · rw [if_pos hguard]
      obtain ⟨hp1, hlt0⟩ := hguard
      have hlt : (s.get i).priority < (s.get (i / 2)).priority := hlt0
      have hi2' : 2 ≤ i := by omega
      have hplt : i / 2 < i := by omega
      have hplen : i / 2 < s.len := lt_trans hplt hi2
      have hne : i ≠ i / 2 := by omega
      obtain ⟨tc', hlen', hblen', hgi', hgp', hgo', hfn'⟩ :=
        swapAt_spec s i (i / 2) tc hi1 hi2 hp1 hplen hne
      have hup' : AHUp (s.swapAt i (i / 2)) (i / 2) := by
        constructor
        · intro j hj2 hjlen hjp
          rw [hlen'] at hjlen
          by_cases hji : j = i
          · subst hji
            rw [hgi', hgp']
            exact le_of_lt hlt
          · have hgj : (s.swapAt i (i / 2)).get j = s.get j :=
              hgo' j hji hjp
            rw [hgj]
            by_cases hj2i : j / 2 = i
            · rw [hj2i, hgi']
              exact hup.2 j hi2' hj2i hj2 hjlen
            · by_cases hj2p : j / 2 = i / 2
              · rw [hj2p, hgp']
                have h1 := hup.1 j hj2 hjlen hji
                rw [hj2p] at h1
                exact le_trans (le_of_lt hlt) h1
              · rw [hgo' (j / 2) hj2i hj2p]
                exact hup.1 j hj2 hjlen hji
        · intro c hp2 hcc hc2 hclen
          rw [hlen'] at hclen
          have hq1 : i / 2 / 2 ≠ i := by omega
          have hq2 : i / 2 / 2 ≠ i / 2 := by omega
          rw [hgo' (i / 2 / 2) hq1 hq2]
          have hpi : i / 2 ≠ i := by omega
          have hedge : (s.get (i / 2 / 2)).priority ≤
              (s.get (i / 2)).priority :=
            hup.1 (i / 2) hp2 hplen hpi
          by_cases hci : c = i
          · subst hci
            rw [hgi']
            exact hedge
          · have hcp : c ≠ i / 2 := by omega
            rw [hgo' c hci hcp]
            have h1 := hup.1 c hc2 hclen hci
            rw [hcc] at h1
            exact le_trans hedge h1
      have hres := ih (s.swapAt i (i / 2)) (i / 2) tc' hp1
        (by rw [hlen']; exact hplen) hup' (by omega)
      refine ⟨hres.1, ?_, ?_⟩
      · rw [hres.2.1, hlen']
      · intro u hu
        exact hres.2.2 u (hfn' u hu)
    · rw [if_neg hguard]
      refine ⟨⟨tc, ?_⟩, rfl, fun u hu => hu⟩
      intro j hj2 hjlen
      by_cases hji : j = i
      · subst hji
        have h2 : ¬ heLt (s.get j) (s.get (j / 2)) := by
          intro h
          exact hguard ⟨by omega, h⟩
        rw [heLt_iff] at h2
        exact le_of_not_lt h2
      · exact hup.1 j hj2 hjlen hji

end SmartPort

namespace SmartPort

variable {V P : Type} [DecidableEq V] [LinearOrder P] [Inhabited V]
  [Inhabited P]

theorem heapDownAux_succ (fuel : Nat) (s : PQR V P) (i : Nat) :
    heapDownAux (fuel + 1) s i =
      if 2 * i ≥ s.len then s
      else
        let child := if 2 * i = s.len - 1 ∨
            heLe (s.get (2 * i)) (s.get (2 * i + 1)) then 2 * i
          else 2 * i + 1
        if heLe (s.get i) (s.get child) then s
        else heapDownAux fuel (s.swapAt i child) child := rfl

theorem heapDownAux_wf (fuel : Nat) :
    ∀ (s : PQR V P) (i : Nat),
    PQTC s → 1 ≤ i → i < s.len → AHDown s i → s.len ≤ fuel + i →
    PQWf (heapDownAux fuel s i) ∧
    (heapDownAux fuel s i).len = s.len ∧
    (∀ u, alistFind s.idx u = none →
      alistFind (heapDownAux fuel s i).idx u = none) := by
  induction fuel with
  | zero =>
    intro s i tc hi1 hi2 hdn hfuel
    omega
  | succ fuel ih =>
    intro s i tc hi1 hi2 hdn hfuel
    rw [heapDownAux_succ]
    by_cases hleaf : 2 * i ≥ s.len
    · rw [if_pos hleaf]
      refine ⟨⟨tc, ?_⟩, rfl, fun u hu => hu⟩
      intro j hj2 hjlen
      have hj2i : j / 2 ≠ i := by omega
      exact hdn.1 j hj2 hjlen hj2i
    · rw [if_neg hleaf]
      have h2ilt : 2 * i < s.len := by omega
      set child := if 2 * i = s.len - 1 ∨
          heLe (s.get (2 * i)) (s.get (2 * i + 1)) then 2 * i
        else 2 * i + 1 with hchild
      have hcrange : child = 2 * i ∨ child = 2 * i + 1 := by
        rw [hchild]
        by_cases h : 2 * i = s.len - 1 ∨
            heLe (s.get (2 * i)) (s.get (2 * i + 1))
        · rw [if_pos h]; exact Or.inl rfl
        · rw [if_neg h]; exact Or.inr rfl
      have hclen : child < s.len := by
        rcases hcrange with h | h
        · omega
        · rw [hchild] at h
          by_cases hc : 2 * i = s.len - 1 ∨
              heLe (s.get (2 * i)) (s.get (2 * i + 1))
          · rw [if_pos hc] at h; omega
          · push_neg at hc
            omega
      have hc2 : 2 ≤ child := by omega
      have hcd : child / 2 = i := by omega
      have hmin : ∀ j, j / 2 = i → 2 ≤ j → j < s.len →
          (s.get child).priority ≤ (s.get j).priority := by
        intro j hji hj2 hjlen
        have hjr : j = 2 * i ∨ j = 2 * i + 1 := by omega
        rw [hchild]
        by_cases hc : 2 * i = s.len - 1 ∨
            heLe (s.get (2 * i)) (s.get (2 * i + 1))
        · rw [if_pos hc]
          rcases hjr with rfl | rfl
          · exact le_refl _
          · rcases hc with hc | hc
            · omega
            · rw [heLe_iff] at hc
              exact hc
        · rw [if_neg hc]
          push_neg at hc
          have hc2le := hc.2
          rw [heLe_iff] at hc2le
          push_neg at hc2le
          rcases hjr with rfl | rfl
          · exact le_of_lt hc2le
          · exact le_refl _
      by_cases hstop : heLe (s.get i) (s.get child)
      · rw [if_pos hstop]
        rw [heLe_iff] at hstop
        refine ⟨⟨tc, ?_⟩, rfl, fun u hu => hu⟩
        intro j hj2 hjlen
        by_cases hji : j / 2 = i
        · rw [hji]
          exact le_trans hstop (hmin j hji hj2 hjlen)
        · exact hdn.1 j hj2 hjlen hji
      · rw [if_neg hstop]
        rw [heLe_iff] at hstop
        push_neg at hstop
        have hic : i ≠ child := by omega
        obtain ⟨tc', hlen', hblen', hgi', hgc', hgo', hfn'⟩ :=
          swapAt_spec s i child tc hi1 hi2 (by omega) hclen hic
        have hdn' : AHDown (s.swapAt i child) child := by
          constructor
          · intro j hj2 hjlen hjc
            rw [hlen'] at hjlen
            by_cases hji : j = i
            · subst hji
              have hq1 : j / 2 ≠ j := by omega
              have hq2 : j / 2 ≠ child := by omega
              rw [hgo' (j / 2) hq1 hq2, hgi']
              exact hdn.2 child hj2 hcd hclen
            · by_cases hjc' : j = child
              · subst hjc'
                rw [hcd, hgi', hgc']
                exact le_of_lt hstop
              · have hgj : (s.swapAt i child).get j = s.get j :=
                  hgo' j hji hjc'
                rw [hgj]
                by_cases hj2i : j / 2 = i
                · rw [hj2i, hgi']
                  exact hmin j hj2i hj2 hjlen
                · rw [hgo' (j / 2) hj2i hjc]
                  exact hdn.1 j hj2 hjlen hj2i
          · intro c hc2' hcc hclen2
            rw [hlen'] at hclen2
            have hci : c ≠ i := by omega
            have hcch : c ≠ child := by omega
            rw [hcd, hgi', hgo' c hci hcch]
            have hcge2 : 2 ≤ c := by omega
            have hccni : c / 2 ≠ i := by omega
            have h1 := hdn.1 c hcge2 hclen2 hccni
            rw [hcc] at h1
            exact h1
        have hres := ih (s.swapAt i child) child tc' (by omega)
          (by rw [hlen']; exact hclen) hdn' (by rw [hlen']; omega)
        refine ⟨hres.1, ?_, ?_⟩
        · rw [hres.2.1, hlen']
        · intro u hu
          exact hres.2.2 u (hfn' u hu)

end SmartPort

namespace SmartPort

theorem list_getD_set_self {A : Type} (l : List A) (i : Nat) (e d : A)
    (h : i < l.length) : (l.set i e).getD i d = e := by
  rw [List.getD_eq_getElem?_getD, List.getElem?_set_self (by simpa using h)]
  rfl

theorem list_getD_set_other {A : Type} (l : List A) (i k : Nat) (e d : A)
    (h : i ≠ k) : (l.set i e).getD k d = l.getD k d := by
  rw [List.getD_eq_getElem?_getD, List.getElem?_set_ne h,
    ← List.getD_eq_getElem?_getD]

variable {V P : Type} [DecidableEq V] [LinearOrder P] [Inhabited V]
  [Inhabited P]

theorem remove_wf (s : PQR V P) (v : V) (hwf : PQWf s) :
    PQWf (s.remove v) ∧
    alistFind (s.remove v).idx v = none ∧
    (∀ u, alistFind s.idx u = none →
      alistFind (s.remove v).idx u = none) := by
  obtain ⟨tc, hp⟩ := hwf
  have hlb := tc.len_le
  rcases hfind : alistFind s.idx v with _ | i
  · have hrm : s.remove v = s := by
      unfold PQR.remove
      rw [hfind]
    rw [hrm]
    exact ⟨⟨tc, hp⟩, hfind, fun u hu => hu⟩
  · obtain ⟨hi1, hilen, hival⟩ := tc.find_sound v i hfind
    have hrm : s.remove v =
        (if (s.get i).priority < (s.get (s.len - 1)).priority then
          heapDown
            { idx := alistErase
                (alistSet s.idx ((s.get (s.len - 1)).value) i) v
              buffer := s.buffer.set i (s.get (s.len - 1))
              len := s.len - 1 } i
        else
          heapUp
            { idx := alistErase
                (alistSet s.idx ((s.get (s.len - 1)).value) i) v
              buffer := s.buffer.set i (s.get (s.len - 1))
              len := s.len - 1 } i) := by
      unfold PQR.remove
      rw [hfind]
      rfl
    have hibuf : i < s.buffer.length := lt_of_lt_of_le hilen hlb
    by_cases hA : i = s.len - 1
    · -- removing the element in the last live slot
      have hwval : (s.get (s.len - 1)).value = v := by
        rw [← hA]
        exact hival
      have hset : alistSet s.idx ((s.get (s.len - 1)).value) i = s.idx := by
        rw [hwval]
        exact alistSet_eq_self_of_find s.idx v i hfind
      have hcond : ¬ ((s.get i).priority <
          (s.get (s.len - 1)).priority) := by
        rw [← hA]
        exact lt_irrefl _
      rw [hrm, if_neg hcond, hset]
      set S : PQR V P :=
        { idx := alistErase s.idx v,
          buffer := s.buffer.set i (s.get (s.len - 1)),
          len := s.len - 1 } with hS
      have hSlen : S.len = s.len - 1 := rfl
      have hSgi : S.get i = s.get i := by
        show (s.buffer.set i (s.get (s.len - 1))).getD i
          ⟨default, default⟩ = s.get i
        rw [list_getD_set_self _ _ _ _ hibuf, ← hA]
      have hSgo : ∀ k, k ≠ i → S.get k = s.get k := by
        intro k hk
        show (s.buffer.set i (s.get (s.len - 1))).getD k
            ⟨default, default⟩ =
          s.buffer.getD k ⟨default, default⟩
        exact list_getD_set_other _ _ _ _ _ (fun h => hk h.symm)
      have hSg : ∀ k, S.get k = s.get k := by
        intro k
        by_cases hk : k = i
        · rw [hk, hSgi]
        · exact hSgo k hk
      have hfSv : alistFind S.idx v = none := by
        show alistFind (alistErase s.idx v) v = none
        exact alistFind_alistErase_self s.idx v tc.keys_nodup
      have htc4 : PQTC S := by
        refine ⟨by omega, ?_, ?_, ?_, ?_⟩
        · show s.len - 1 ≤ (s.buffer.set i (s.get (s.len - 1))).length
          rw [List.length_set]
          omega
        · show ((alistErase s.idx v).map Prod.fst).Nodup
          exact List.Nodup.sublist (keys_alistErase_sublist s.idx v)
            tc.keys_nodup
        · intro u k h4
          by_cases hu : u = v
          · rw [hu] at h4
            rw [hfSv] at h4
            exact Option.noConfusion h4
          · rw [show alistFind S.idx u =
                alistFind (alistErase s.idx v) u from rfl,
              alistFind_alistErase_other s.idx v u
                (fun h => hu h.symm)] at h4
            obtain ⟨hk1, hk2, hk3⟩ := tc.find_sound u k h4
            have hki : k ≠ i := by
              intro h
              apply hu
              rw [← hk3, h]
              exact hival
            refine ⟨hk1, ?_, ?_⟩
            · rw [hSlen]
              omega
            · rw [hSg k]
              exact hk3
        · intro k h1 h2
          rw [hSlen] at h2
          rw [hSg k]
          have hu := tc.find_complete k h1 (by omega)
          have hune : (s.get k).value ≠ v := by
            intro h
            rw [h, hfind] at hu
            have : i = k := Option.some.inj hu
            omega
          show alistFind (alistErase s.idx v) ((s.get k).value) = some k
          rw [alistFind_alistErase_other s.idx v _
            (fun h => hune h.symm)]
          exact hu
      obtain ⟨f, hf⟩ : ∃ f, i = f + 1 := ⟨i - 1, by omega⟩
      have hguard : ¬ (1 ≤ (f + 1) / 2 ∧
          heLt (S.get (f + 1)) (S.get ((f + 1) / 2))) := by
        rintro ⟨h1, h2⟩
        rw [heLt_iff, hSg (f + 1), hSg ((f + 1) / 2)] at h2
        have hflen : f + 1 < s.len := hf ▸ hilen
        have h3 := hp (f + 1) (by omega) hflen
        exact absurd h2 (not_lt_of_ge h3)
      have hstep : heapUp S i = S := by
        show heapUpAux i S i = S
        rw [hf, heapUpAux_succ, if_neg hguard]
      rw [hstep]
      refine ⟨⟨htc4, ?_⟩, hfSv, ?_⟩
      · intro j hj2 hjlen
        rw [hSlen] at hjlen
        rw [hSg j, hSg (j / 2)]
        exact hp j hj2 (by omega)
      · intro u hu
        by_cases hune : u = v
        · rw [hune]
          exact hfSv
        · show alistFind (alistErase s.idx v) u = none
          rw [alistFind_alistErase_other s.idx v u
            (fun h => hune h.symm)]
          exact hu
    · -- removing an interior element
      have hilt : i < s.len - 1 := by omega
      have hli1 : 1 ≤ s.len - 1 := by omega
      have hlilen : s.len - 1 < s.len := by omega
      have hwfind : alistFind s.idx ((s.get (s.len - 1)).value) =
          some (s.len - 1) :=
        tc.find_complete (s.len - 1) hli1 hlilen
      have hwv : (s.get (s.len - 1)).value ≠ v := by
        intro h
        rw [h, hfind] at hwfind
        exact hA (Option.some.inj hwfind)
      set S : PQR V P :=
        { idx := alistErase
            (alistSet s.idx ((s.get (s.len - 1)).value) i) v,
          buffer := s.buffer.set i (s.get (s.len - 1)),
          len := s.len - 1 } with hS
      have hSlen : S.len = s.len - 1 := rfl
      have hSgi : S.get i = s.get (s.len - 1) := by
        show (s.buffer.set i (s.get (s.len - 1))).getD i
          ⟨default, default⟩ = s.get (s.len - 1)
        exact list_getD_set_self _ _ _ _ hibuf
      have hSgo : ∀ k, k ≠ i → S.get k = s.get k := by
        intro k hk
        show (s.buffer.set i (s.get (s.len - 1))).getD k
            ⟨default, default⟩ =
          s.buffer.getD k ⟨default, default⟩
        exact list_getD_set_other _ _ _ _ _ (fun h => hk h.symm)
      have hkeys1 : ((alistSet s.idx ((s.get (s.len - 1)).value) i).map
          Prod.fst) = s.idx.map Prod.fst :=
        keys_alistSet_of_mem i (mem_keys_of_alistFind_eq_some hwfind)
      have hnd1 : (((alistSet s.idx ((s.get (s.len - 1)).value) i).map
          Prod.fst)).Nodup := by
        rw [hkeys1]
        exact tc.keys_nodup
      have hfSv : alistFind S.idx v = none := by
        show alistFind (alistErase
          (alistSet s.idx ((s.get (s.len - 1)).value) i) v) v = none
        exact alistFind_alistErase_self _ v hnd1
      have hfSw : alistFind S.idx ((s.get (s.len - 1)).value) = some i := by
        show alistFind (alistErase
          (alistSet s.idx ((s.get (s.len - 1)).value) i) v)
          ((s.get (s.len - 1)).value) = some i
        rw [alistFind_alistErase_other _ v _ (fun h => hwv h.symm)]
        exact alistFind_alistSet_self _ _ _
      have hfSo : ∀ u, u ≠ v → u ≠ (s.get (s.len - 1)).value →
          alistFind S.idx u = alistFind s.idx u := by
        intro u h1 h2
        show alistFind (alistErase
          (alistSet s.idx ((s.get (s.len - 1)).value) i) v) u =
          alistFind s.idx u
        rw [alistFind_alistErase_other _ v u (fun h => h1 h.symm),
          alistFind_alistSet_other s.idx ((s.get (s.len - 1)).value) u i
            (fun h => h2 h.symm)]
      have htc4 : PQTC S := by
        refine ⟨by omega, ?_, ?_, ?_, ?_⟩
        · show s.len - 1 ≤ (s.buffer.set i (s.get (s.len - 1))).length
          rw [List.length_set]
          omega
        · show ((alistErase
            (alistSet s.idx ((s.get (s.len - 1)).value) i) v).map
            Prod.fst).Nodup
          exact List.Nodup.sublist (keys_alistErase_sublist _ v) hnd1
        · intro u k h4
          by_cases hu1 : u = v
          · rw [hu1, hfSv] at h4
            exact Option.noConfusion h4
          · by_cases hu2 : u = (s.get (s.len - 1)).value
            · rw [hu2, hfSw] at h4
              obtain rfl : i = k := Option.some.inj h4
              refine ⟨hi1, ?_, ?_⟩
              · rw [hSlen]
                omega
              · rw [hSgi, ← hu2]
            · rw [hfSo u hu1 hu2] at h4
              obtain ⟨hk1, hk2, hk3⟩ := tc.find_sound u k h4
              have hki : k ≠ i := by
                intro h
                apply hu1
                rw [← hk3, h]
                exact hival
              have hkli : k ≠ s.len - 1 := by
                intro h
                apply hu2
                rw [← hk3, h]
              refine ⟨hk1, ?_, ?_⟩
              · rw [hSlen]
                omega
              · rw [hSgo k hki]
                exact hk3
        · intro k h1 h2
          rw [hSlen] at h2
          by_cases hki : k = i
          · rw [hki, hSgi]
            exact hfSw
          · rw [hSgo k hki]
            have hu := tc.find_complete k h1 (by omega)
            have hu1 : (s.get k).value ≠ v := by
              intro h
              rw [h, hfind] at hu
              have : i = k := Option.some.inj hu
              omega
            have hu2 : (s.get k).value ≠ (s.get (s.len - 1)).value := by
              intro h
              rw [h, hwfind] at hu
              have : s.len - 1 = k := Option.some.inj hu
              omega
            rw [hfSo _ hu1 hu2]
            exact hu
      by_cases hlt : (s.get i).priority < (s.get (s.len - 1)).priority
      · rw [hrm, if_pos hlt]
        have hdn : AHDown S i := by
          constructor
          · intro j hj2 hjlen hj2i
            rw [hSlen] at hjlen
            by_cases hji : j = i
            · have hj2' : 2 ≤ i := hji ▸ hj2
              rw [hji, hSgo (i / 2) (by omega), hSgi]
              have h1 := hp i hj2' hilen
              exact le_trans h1 (le_of_lt hlt)
            · rw [hSgo j hji, hSgo (j / 2) hj2i]
              exact hp j hj2 (by omega)
          · intro c h2i hcc hclen
            rw [hSlen] at hclen
            have hci : c ≠ i := by omega
            rw [hSgo c hci, hSgo (i / 2) (by omega)]
            have h1 := hp i h2i hilen
            have h2 := hp c (by omega) (by omega)
            rw [hcc] at h2
            exact le_trans h1 h2
        have hres := heapDownAux_wf S.len S i htc4 hi1
          (by rw [hSlen]; omega) hdn (by omega)
        refine ⟨hres.1, hres.2.2 v hfSv, ?_⟩
        intro u hu
        by_cases hu1 : u = v
        · rw [hu1]
          exact hres.2.2 v hfSv
        · have hu2 : u ≠ (s.get (s.len - 1)).value := by
            intro h
            rw [h, hwfind] at hu
            exact Option.noConfusion hu
          exact hres.2.2 u (by rw [hfSo u hu1 hu2]; exact hu)
      · rw [hrm, if_neg hlt]
        have hge : (s.get (s.len - 1)).priority ≤ (s.get i).priority :=
          le_of_not_lt hlt
        have hupS : AHUp S i := by
          constructor
          · intro j hj2 hjlen hji
            rw [hSlen] at hjlen
            by_cases hj2i : j / 2 = i
            · rw [hj2i, hSgi, hSgo j hji]
              have h1 := hp j hj2 (by omega)
              rw [hj2i] at h1
              exact le_trans hge h1
            · rw [hSgo j hji, hSgo (j / 2) hj2i]
              exact hp j hj2 (by omega)
          · intro c h2i hcc hc2 hclen
            rw [hSlen] at hclen
            have hci : c ≠ i := by omega
            rw [hSgo c hci, hSgo (i / 2) (by omega)]
            have h1 := hp i h2i hilen
            have h2 := hp c hc2 (by omega)
            rw [hcc] at h2
            exact le_trans h1 h2
        have hres := heapUpAux_wf i S i htc4 hi1
          (by rw [hSlen]; omega) hupS (le_refl i)
        refine ⟨hres.1, hres.2.2 v hfSv, ?_⟩
        intro u hu
        by_cases hu1 : u = v
        · rw [hu1]
          exact hres.2.2 v hfSv
        · have hu2 : u ≠ (s.get (s.len - 1)).value := by
            intro h
            rw [h, hwfind] at hu
            exact Option.noConfusion hu
          exact hres.2.2 u (by rw [hfSo u hu1 hu2]; exact hu)

end SmartPort

namespace SmartPort

variable {V P : Type} [DecidableEq V] [LinearOrder P] [Inhabited V]
  [Inhabited P]

theorem insert_wf (s : PQR V P) (v : V) (p : P) (hwf : PQWf s) :
    PQWf (s.insert v p) := by
  obtain ⟨hwf0, hf0, -⟩ := remove_wf s v hwf
  obtain ⟨tc0, hp0⟩ := hwf0
  have hlb0 := tc0.len_le
  have hpos0 := tc0.len_pos
  have hins : s.insert v p = heapUp
      { idx := alistSet (s.remove v).idx v (s.remove v).len,
        buffer := (s.remove v).buffer.take (s.remove v).len ++
          [(⟨v, p⟩ : HeapEntry V P)],
        len := (s.remove v).len + 1 } ((s.remove v).len) := rfl
  rw [hins]
  set s0 := s.remove v with hs0
  set S : PQR V P :=
    { idx := alistSet s0.idx v s0.len,
      buffer := s0.buffer.take s0.len ++ [(⟨v, p⟩ : HeapEntry V P)],
      len := s0.len + 1 } with hS
  have hSlen : S.len = s0.len + 1 := rfl
  have hbuf2 : S.buffer.length = s0.len + 1 := by
    show (s0.buffer.take s0.len ++ [(⟨v, p⟩ : HeapEntry V P)]).length =
      s0.len + 1
    rw [List.length_append, List.length_take]
    simp
    omega
  have hg2last : S.get s0.len = (⟨v, p⟩ : HeapEntry V P) := by
    show (s0.buffer.take s0.len ++
        [(⟨v, p⟩ : HeapEntry V P)]).getD s0.len ⟨default, default⟩ =
      (⟨v, p⟩ : HeapEntry V P)
    rw [List.getD_eq_getElem?_getD,
      List.getElem?_append_right (by rw [List.length_take]; omega),
      show s0.len - (s0.buffer.take s0.len).length = 0 from
        (by rw [List.length_take]; omega)]
    rfl
  have hg2o : ∀ k, k < s0.len → S.get k = s0.get k := by
    intro k hk
    show (s0.buffer.take s0.len ++
        [(⟨v, p⟩ : HeapEntry V P)]).getD k ⟨default, default⟩ =
      s0.buffer.getD k ⟨default, default⟩
    rw [List.getD_eq_getElem?_getD, List.getElem?_append,
      if_pos (by rw [List.length_take]; omega),
      List.getElem?_take_of_lt hk, ← List.getD_eq_getElem?_getD]
  have hfS : alistFind S.idx v = some s0.len := by
    show alistFind (alistSet s0.idx v s0.len) v = some s0.len
    exact alistFind_alistSet_self _ _ _
  have hfSo : ∀ u, u ≠ v → alistFind S.idx u = alistFind s0.idx u := by
    intro u hu
    show alistFind (alistSet s0.idx v s0.len) u = alistFind s0.idx u
    exact alistFind_alistSet_other s0.idx v u s0.len
      (fun h => hu h.symm)
  have hnotmem : v ∉ s0.idx.map Prod.fst :=
    not_mem_keys_of_alistFind_eq_none s0.idx v hf0
  have htcS : PQTC S := by
    refine ⟨by omega, ?_, ?_, ?_, ?_⟩
    · rw [hSlen, hbuf2]
    · show ((alistSet s0.idx v s0.len).map Prod.fst).Nodup
      rw [keys_alistSet_of_not_mem s0.len hnotmem, List.nodup_append]
      refine ⟨tc0.keys_nodup, List.nodup_singleton v, ?_⟩
      intro a ha hb
      have hav : a = v := List.mem_singleton.mp hb
      rw [hav] at ha
      exact hnotmem ha
    · intro u k h4
      by_cases hu : u = v
      · rw [hu, hfS] at h4
        obtain rfl : s0.len = k := Option.some.inj h4
        refine ⟨hpos0, ?_, ?_⟩
        · rw [hSlen]
          omega
        · rw [hg2last, hu]
      · rw [hfSo u hu] at h4
        obtain ⟨h1, h2, h3⟩ := tc0.find_sound u k h4
        refine ⟨h1, ?_, ?_⟩
        · rw [hSlen]
          omega
        · rw [hg2o k h2]
          exact h3
    · intro k h1 h2
      rw [hSlen] at h2
      by_cases hk : k = s0.len
      · rw [hk, hg2last]
        exact hfS
      · rw [hg2o k (by omega)]
        have hu := tc0.find_complete k h1 (by omega)
        have hune : (s0.get k).value ≠ v := by
          intro h
          rw [h, hf0] at hu
          exact Option.noConfusion hu
        rw [hfSo _ hune]
        exact hu
  have hupS : AHUp S s0.len := by
    constructor
    · intro j hj2 hjlen hjne
      rw [hSlen] at hjlen
      rw [hg2o j (by omega), hg2o (j / 2) (by omega)]
      exact hp0 j hj2 (by omega)
    · intro c h2i hcc hc2 hclen
      rw [hSlen] at hclen
      omega
  exact (heapUpAux_wf s0.len S s0.len htcS hpos0
    (by rw [hSlen]; omega) hupS (le_refl _)).1

end SmartPort

namespace SmartPort

variable {V P : Type} [DecidableEq V] [LinearOrder P] [Inhabited V]
  [Inhabited P]

theorem pqtc_size (s : PQR V P) (tc : PQTC s) :
    s.idx.length + 1 = s.len := by
  have hcard : (Finset.Ico 1 s.len).card =
      ((s.idx.map Prod.fst).toFinset).card := by
    refine Finset.card_bij (fun k _ => (s.get k).value) ?_ ?_ ?_
    · intro k hk
      rw [Finset.mem_Ico] at hk
      rw [List.mem_toFinset]
      exact mem_keys_of_alistFind_eq_some (tc.find_complete k hk.1 hk.2)
    · intro k1 hk1 k2 hk2 heq
      rw [Finset.mem_Ico] at hk1 hk2
      have heq' : (s.get k1).value = (s.get k2).value := heq
      have h1 := tc.find_complete k1 hk1.1 hk1.2
      have h2 := tc.find_complete k2 hk2.1 hk2.2
      rw [heq', h2] at h1
      exact (Option.some.inj h1).symm
    · intro u hu
      rw [List.mem_toFinset] at hu
      rcases hfind : alistFind s.idx u with _ | w
      · exact absurd hu ((alistFind_eq_none_iff s.idx u).mp hfind)
      · obtain ⟨h1, h2, h3⟩ := tc.find_sound u w hfind
        exact ⟨w, Finset.mem_Ico.mpr ⟨h1, h2⟩, h3⟩
  rw [List.toFinset_card_of_nodup tc.keys_nodup, Nat.card_Ico,
    List.length_map] at hcard
  have := tc.len_pos
  omega

theorem wf_foldl (ops : List (PQOp V P))
    (hops : ∀ op ∈ ops, op ≠ PQOp.pop) :
    ∀ s : PQR V P, PQWf s → PQWf (ops.foldl applyOp s) := by
  induction ops with
  | nil =>
    intro s h
    exact h
  | cons op rest ih =>
    intro s h
    rw [List.foldl_cons]
    apply ih (fun o ho => hops o (List.mem_cons_of_mem _ ho))
    cases op with
    | insert v p => exact insert_wf s v p h
    | remove v => exact (remove_wf s v h).1
    | pop => exact absurd rfl (hops PQOp.pop (List.mem_cons_self _ _))

/-- Claim C4 (amended): `PriorityQueueWithRemove` maintains the invariant
`idx.size() + 1 == vec.size()` after every sequence of `insert(v, p)` and
`remove(v)` operations starting from the freshly constructed queue — the
index table holds exactly one entry per live heap slot `1 .. vec.size()-1`.
The original claim, which also allowed `pop()`, is false: `pop` shrinks
the vector without erasing the popped value from `idx`. -/
theorem claim_C4_amended (ops : List (PQOp V P))
    (hops : ∀ op ∈ ops, op ≠ PQOp.pop) :
    (runOps ops).idx.length + 1 = (runOps ops).len :=
  pqtc_size _ (wf_foldl ops hops PQR.empty pqwf_empty).1

/-- Witness for the amended claim C4 at the concrete operation sequence
`insert(5, 3); insert(6, 1); remove(6)`. -/
theorem claim_C4_amended_witness :
    (∀ op ∈ ([PQOp.insert 5 3, PQOp.insert 6 1, PQOp.remove 6] :
        List (PQOp Nat Nat)), op ≠ PQOp.pop) ∧
    (runOps [PQOp.insert 5 3, PQOp.insert 6 1, PQOp.remove 6] :
        PQR Nat Nat).idx.length + 1 =
      (runOps [PQOp.insert 5 3, PQOp.insert 6 1, PQOp.remove 6] :
        PQR Nat Nat).len :=
  ⟨by decide, claim_C4_amended _ (by decide)⟩

end SmartPort
